import Mathlib

/-!
Verification of the fraud-signal analytics engine:
shallow embedding of `src/backend/fraud_detection.py` and the
orchestration helpers in `src/backend/tools.py`, with theorems settling
the specification's claims about them.

Python floats are modelled as real numbers (`ℝ`) where a square root is
taken, and as rationals (`ℚ`) where all arithmetic is field arithmetic;
Python arbitrary-precision integers are modelled as `ℤ`.
-/

/-- A decoded payload value as it reaches the detectors: absent (`None`),
a Python integer, or a string.  (The event decoder produces exactly these
shapes for body values; see `_decoded_event_to_dict`.) -/
inductive PVal where
  | none
  | int (n : ℤ)
  | str (s : String)
deriving DecidableEq, Repr

/-- A `DecodedEvent`: indexed topic values (addresses or `None`) and body
values.  Address-position topics decode to strings or `None` per the data
model. -/
structure DecodedEvent where
  indexed : List (Option String)
  body : List PVal
deriving DecidableEq, Repr

/-- Numeric value of a hex digit, if the character is one. -/
def hexDigitVal (c : Char) : Option ℕ :=
  if '0' ≤ c ∧ c ≤ '9' then some (c.toNat - '0'.toNat)
  else if 'a' ≤ c ∧ c ≤ 'f' then some (c.toNat - 'a'.toNat + 10)
  else if 'A' ≤ c ∧ c ≤ 'F' then some (c.toNat - 'A'.toNat + 10)
  else Option.none

/-- Numeric value of a decimal digit, if the character is one. -/
def decDigitVal (c : Char) : Option ℕ :=
  if '0' ≤ c ∧ c ≤ '9' then some (c.toNat - '0'.toNat) else Option.none

/-- Folds digits of a literal left to right in the given base; `Option.none`
on the first non-digit. -/
def parseDigits (digitVal : Char → Option ℕ) (base : ℕ) (cs : List Char) :
    Option ℕ :=
  cs.foldl
    (fun acc c =>
      match acc, digitVal c with
      | some n, some d => some (n * base + d)
      | _, _ => Option.none)
    (some 0)

/-- Models Python `int(s, 16)` on a string already known to start with
`0x`: the remainder must be a nonempty run of hex digits.  (Underscore
separators and surrounding whitespace, which Python also tolerates, are
not modelled.) -/
def parseHexLiteral (s : String) : Option ℤ :=
  let cs := (s.drop 2).toList
  if cs.isEmpty then Option.none
  else (parseDigits hexDigitVal 16 cs).map (fun n => (n : ℤ))

/-- Models Python `int(s)` on a base-10 literal: an optional sign followed
by a nonempty run of decimal digits.  (Underscore separators and
surrounding whitespace are not modelled.) -/
def parseDecLiteral (s : String) : Option ℤ :=
  match s.toList with
  | [] => Option.none
  | '-' :: rest =>
      if rest.isEmpty then Option.none
      else (parseDigits decDigitVal 10 rest).map (fun n => -(n : ℤ))
  | '+' :: rest =>
      if rest.isEmpty then Option.none
      else (parseDigits decDigitVal 10 rest).map (fun n => (n : ℤ))
  | cs => (parseDigits decDigitVal 10 cs).map (fun n => (n : ℤ))

/-- Models `int(value, 16) if value.startswith("0x") else int(value)`,
with a parse failure returned as `Option.none`. -/
def pyIntOfString (s : String) : Option ℤ :=
  if s.startsWith "0x" then parseHexLiteral s else parseDecLiteral s

/-- `_maybe_hex_to_int`: `None` stays `None`, integers pass through,
strings are parsed as `0x`-hex or base-10 literals, anything unparsable
becomes `None`. -/
def maybe_hex_to_int : PVal → Option ℤ
  | PVal.none => Option.none
  | PVal.int n => some n
  | PVal.str s => pyIntOfString s

/-- Python `str.lower()` over the characters of a string (ASCII case
mapping, as applied to hex addresses throughout the engine). -/
def pyLower (s : String) : String := ⟨s.data.map Char.toLower⟩

/-- `_extract_transfer`: first two indexed values as (sender, receiver)
and the first body value normalized to an integer. -/
def extract_transfer (e : DecodedEvent) :
    Option String × Option String × Option ℤ :=
  let from_addr := (e.indexed.get? 0).join
  let to_addr := (e.indexed.get? 1).join
  let value :=
    match e.body with
    | [] => Option.none
    | raw :: _ => maybe_hex_to_int raw
  (from_addr, to_addr, value)

/-- `_z_scores`: population z-scores of a batch.  `statistics.fmean` is
the arithmetic mean and `statistics.pstdev` the square root of the
population variance; `math.isclose(std_dev, 0.0)` with default tolerances
holds exactly when `std_dev = 0`, so the zero test is modelled exactly. -/
noncomputable def z_scores (values : List ℝ) : List ℝ :=
  if values.isEmpty then []
  else if values.length = 1 then [0]
  else
    let mean := values.sum / values.length
    let std_dev :=
      Real.sqrt (((values.map (fun v => (v - mean) ^ 2)).sum) / values.length)
    if std_dev = 0 then values.map (fun _ => 0)
    else values.map (fun v => (v - mean) / std_dev)

/-- A `value_anomaly` finding: the flagged event and its z-score. -/
structure Anomaly where
  event : DecodedEvent
  z_score : ℝ

/-- `detect_value_anomalies`: collects the parsable first body values,
z-scores them, then zips the *full* event list against those scores and
flags every pair whose score clears the threshold. -/
noncomputable def detect_value_anomalies (decoded_logs : List DecodedEvent)
    (z_threshold : ℝ) : List Anomaly :=
  let values : List ℝ :=
    decoded_logs.filterMap (fun e =>
      match e.body with
      | [] => Option.none
      | raw :: _ => (maybe_hex_to_int raw).map (fun n => (n : ℝ)))
  let scores := z_scores values
  (decoded_logs.zip scores).filterMap (fun p =>
    if |p.2| ≥ z_threshold then some ⟨p.1, p.2⟩ else Option.none)

/-- A `large_transfer` finding: the flagged event and its parsed value. -/
structure LargeTransfer where
  event : DecodedEvent
  value : ℤ
deriving DecidableEq, Repr

/-- The coercion `int(raw_value)` applied by `detect_large_transfers` to a
non-string first body value: an integer passes through, but `int(None)`
raises a `TypeError`.  Strings go through `_maybe_hex_to_int` instead. -/
def large_transfer_value : PVal → Except String (Option ℤ)
  | PVal.str s => Except.ok (pyIntOfString s)
  | PVal.int n => Except.ok (some n)
  | PVal.none => Except.error "TypeError: int() argument is None"

/-- `detect_large_transfers`: flags events whose parsed first body value
is at least `min_value`; an event with an empty body, or whose string
value fails to parse, is skipped, but a `None` body value raises. -/
def detect_large_transfers (decoded_logs : List DecodedEvent)
    (min_value : ℤ) : Except String (List LargeTransfer) :=
  match decoded_logs with
  | [] => Except.ok []
  | e :: rest =>
      match e.body with
      | [] => detect_large_transfers rest min_value
      | raw :: _ =>
          match large_transfer_value raw with
          | Except.error msg => Except.error msg
          | Except.ok Option.none => detect_large_transfers rest min_value
          | Except.ok (some v) =>
              if v ≥ min_value then
                (detect_large_transfers rest min_value).map
                  (fun fs => ⟨e, v⟩ :: fs)
              else detect_large_transfers rest min_value

/-- Stable insertion of `x` into a descending-sorted list: `x` is placed
before the first element whose key does not exceed `x`'s. -/
def insertDesc {α : Type} (key : α → ℤ) (x : α) : List α → List α
  | [] => [x]
  | y :: ys => if key y ≤ key x then x :: y :: ys else y :: insertDesc key x ys

/-- Stable descending sort by an integer key; models Python's
`sorted(..., reverse=True)` (stable sorts of equal order are equal as
functions). -/
def sortDesc {α : Type} (key : α → ℤ) : List α → List α
  | [] => []
  | x :: xs => insertDesc key x (sortDesc key xs)

/-- A centrality record: an address and its counterparty-graph degree. -/
structure Centrality where
  address : String
  degree : ℕ
deriving DecidableEq, Repr

/-- `edges[a].add(b)` over an insertion-ordered adjacency list whose
neighbor lists are duplicate-free by construction (modelling
`defaultdict(set)`; only the set's size is ever consumed). -/
def addNeighbor (edges : List (String × List String)) (a b : String) :
    List (String × List String) :=
  match edges with
  | [] => [(a, [b])]
  | (k, ns) :: rest =>
      if k = a then (k, if b ∈ ns then ns else ns ++ [b]) :: rest
      else (k, ns) :: addNeighbor rest a b

/-- The (sender, receiver) pair of an event when the centrality loop
accepts it: both endpoints present and non-empty
(`if not sender or not receiver: continue`). -/
def valid_pair (e : DecodedEvent) : Option (String × String) :=
  match extract_transfer e with
  | (some s, some r, _) =>
      if s = "" ∨ r = "" then Option.none else some (s, r)
  | _ => Option.none

/-- One event's contribution to the adjacency list: a valid
(sender, receiver) pair adds each endpoint to the other's neighbor set;
anything else is skipped. -/
def centralityStep (edges : List (String × List String))
    (e : DecodedEvent) : List (String × List String) :=
  match valid_pair e with
  | some (s, r) => addNeighbor (addNeighbor edges s r) r s
  | Option.none => edges

/-- Modelled from the spec's words (glossary "Centrality (degree)"): the
counterparty that one event gives address `a`, if any. -/
def event_neighbor (a : String) (e : DecodedEvent) : Option String :=
  match valid_pair e with
  | some (s, r) =>
      if s = a then some r else if r = a then some s else Option.none
  | Option.none => Option.none

/-- Modelled from the spec's words: the set of distinct counterparties
address `a` exchanged a valid transfer with in the batch. -/
def spec_neighbors (logs : List DecodedEvent) (a : String) : Finset String :=
  (logs.filterMap (event_neighbor a)).toFinset

/-- The neighbor list stored under `a` in the adjacency list ([] if
absent). -/
def adjNeighbors : List (String × List String) → String → List String
  | [], _ => []
  | (k, ns) :: rest, a => if k = a then ns else adjNeighbors rest a

/-- `compute_address_centrality`: build the adjacency list, keep addresses
whose degree reaches `min_degree`, and sort descending by degree
(stable). -/
def compute_address_centrality (decoded_logs : List DecodedEvent)
    (min_degree : ℕ) : List Centrality :=
  let edges := decoded_logs.foldl centralityStep []
  let centrality := edges.filterMap (fun kv =>
    if kv.2.length ≥ min_degree then some ⟨kv.1, kv.2.length⟩
    else Option.none)
  sortDesc (fun c => (c.degree : ℤ)) centrality

/-- A `price_impact` finding. -/
structure PriceImpact where
  price : ℚ
  previous_price : ℚ
  delta_bps : ℚ
  amount0 : ℤ
  amount1 : ℤ
  liquidity : ℤ
  recipient : Option String
deriving DecidableEq, Repr

/-- The running state of the price-impact scan: the previous valid price
(if any) and the findings accumulated so far. -/
structure SwapState where
  prev_price : Option ℚ
  findings : List PriceImpact
deriving DecidableEq, Repr

/-- The pool price implied by a swap event:
`(sqrtPriceX96 / 2 ** 96) ** 2`, exact in `ℚ`. -/
def swap_price (sqrt_price_x96 : ℤ) : ℚ :=
  ((sqrt_price_x96 : ℚ) / 2 ^ 96) ^ 2

/-- The `min_notional` filter: rejects when
`max(abs(amount0), abs(amount1)) < min_notional`; absent filter rejects
nothing. -/
def notional_rejects (min_notional : Option ℤ) (amount0 amount1 : ℤ) : Bool :=
  match min_notional with
  | some m => decide (max |amount0| |amount1| < m)
  | Option.none => false

/-- One iteration of the `analyze_swap_price_impact` loop, in source
order: shape check (at least 4 body and 3 indexed values), decode of
`amount0, amount1, sqrtPriceX96, liquidity`, notional filter, zero
liquidity, first-event seeding, zero previous price, and finally the
basis-point comparison; `prev_price` is updated after every valid
event. -/
def swap_step (min_price_delta_bps : ℚ) (min_notional : Option ℤ)
    (st : SwapState) (e : DecodedEvent) : SwapState :=
  match e.body, e.indexed with
  | a0raw :: a1raw :: sqraw :: lqraw :: _, _i0 :: i1 :: _i2 :: _ =>
      match maybe_hex_to_int a0raw, maybe_hex_to_int a1raw,
          maybe_hex_to_int sqraw, maybe_hex_to_int lqraw with
      | some amount0, some amount1, some sqrt_price_x96, some liquidity =>
          if notional_rejects min_notional amount0 amount1 then st
          else if liquidity = 0 then st
          else
            let price := swap_price sqrt_price_x96
            match st.prev_price with
            | Option.none => ⟨some price, st.findings⟩
            | some prev =>
                if prev = 0 then ⟨some price, st.findings⟩
                else
                  let bps_delta := |price - prev| / prev * 10000
                  if bps_delta ≥ min_price_delta_bps then
                    ⟨some price, st.findings ++
                      [⟨price, prev, bps_delta, amount0, amount1,
                        liquidity, i1⟩]⟩
                  else ⟨some price, st.findings⟩
      | _, _, _, _ => st
  | _, _ => st

/-- `analyze_swap_price_impact`: fold the step over the ordered event
sequence starting from no previous price, returning the findings. -/
def analyze_swap_price_impact (decoded_logs : List DecodedEvent)
    (min_price_delta_bps : ℚ) (min_notional : Option ℤ) :
    List PriceImpact :=
  (decoded_logs.foldl (swap_step min_price_delta_bps min_notional)
    ⟨Option.none, []⟩).findings

/-- A `wash_trade_pair` finding: the two participants and the swap
count. -/
structure WashTrade where
  participants : List String
  swaps : ℕ
deriving DecidableEq, Repr

/-- Lexicographic comparison of character sequences by Unicode code
point, as Python compares strings when sorting a participant pair. -/
def charListLe : List Char → List Char → Bool
  | [], _ => true
  | _ :: _, [] => false
  | a :: as, b :: bs =>
      if a.toNat < b.toNat then true
      else if b.toNat < a.toNat then false
      else charListLe as bs

/-- Python `a <= b` on strings. -/
def pyStrLe (a b : String) : Bool := charListLe a.data b.data

/-- The unordered participant pair of a swap event: both addresses
lower-cased, sorted lexicographically (`tuple(sorted(pair))`). -/
def wash_key (sender recipient : String) : String × String :=
  let a := pyLower sender
  let b := pyLower recipient
  if pyStrLe a b then (a, b) else (b, a)

/-- The counter key contributed by one event, if any: the event must have
at least 3 indexed values and non-empty first two participants. -/
def wash_event_key (e : DecodedEvent) : Option (String × String) :=
  match e.indexed with
  | some sender :: some recipient :: _ :: _ =>
      if sender = "" ∨ recipient = "" then Option.none
      else some (wash_key sender recipient)
  | _ => Option.none

/-- `edges[key] = edges.get(key, 0) + 1` over an insertion-ordered
association list. -/
def bumpEdge (edges : List ((String × String) × ℕ)) (k : String × String) :
    List ((String × String) × ℕ) :=
  match edges with
  | [] => [(k, 1)]
  | (k', c) :: rest =>
      if k' = k then (k', c + 1) :: rest else (k', c) :: bumpEdge rest k

/-- `detect_swap_wash_trades`: count events per unordered lower-cased
pair, then emit one finding per pair whose count reaches `max_swaps`. -/
def detect_swap_wash_trades (decoded_logs : List DecodedEvent)
    (max_swaps : ℕ) : List WashTrade :=
  let edges := (decoded_logs.filterMap wash_event_key).foldl bumpEdge []
  edges.filterMap (fun kc =>
    if kc.2 ≥ max_swaps then some ⟨[kc.1.1, kc.1.2], kc.2⟩ else Option.none)

/-- A factor record attached to a risk score, tagged by its `type`
field. -/
inductive Factor where
  | z_score_anomaly (z_score : ℝ) (value : Option ℤ)
  | large_transfer (value : ℤ)
  | centrality (degree : ℕ)

/-- A per-watched-address risk score. -/
structure RiskScore where
  address : String
  score : ℤ
  factors : List Factor

/-- The dict comprehension initializing one zero score per lower-cased
watchlist address (duplicates collapse onto the first occurrence). -/
def init_scores (watched : List String) : List RiskScore :=
  watched.foldl
    (fun acc a =>
      if acc.any (fun r => r.address == a) then acc
      else acc ++ [⟨a, 0, []⟩])
    []

/-- `if addr and addr.lower() in scores:` add `pts` and append a factor
to that address's entry; a missing, empty, or unwatched address changes
nothing. -/
def bump_score (scores : List RiskScore) (addr : Option String) (pts : ℤ)
    (f : Factor) : List RiskScore :=
  match addr with
  | Option.none => scores
  | some a =>
      if a = "" then scores
      else
        scores.map (fun r =>
          if r.address = pyLower a then
            ⟨r.address, r.score + pts, r.factors ++ [f]⟩
          else r)

/-- One anomaly finding adds 20 for each watched endpoint of its event
(sender first, then receiver). -/
def apply_anomaly (scores : List RiskScore) (an : Anomaly) :
    List RiskScore :=
  match extract_transfer an.event with
  | (sender, receiver, value) =>
      let f := Factor.z_score_anomaly an.z_score value
      bump_score (bump_score scores sender 20 f) receiver 20 f

/-- One large-transfer finding adds 15 for each watched endpoint of its
event (sender first, then receiver). -/
def apply_large_transfer (scores : List RiskScore) (lt : LargeTransfer) :
    List RiskScore :=
  match extract_transfer lt.event with
  | (sender, receiver, _) =>
      let f := Factor.large_transfer lt.value
      bump_score (bump_score scores sender 15 f) receiver 15 f

/-- The `central_map` lookup: the comprehension keeps, for each
lower-cased non-empty address, the **last** centrality record with that
address. -/
def central_lookup (centrality : List Centrality) (addr : String) :
    Option Centrality :=
  (centrality.filter (fun c =>
    decide (c.address ≠ "" ∧ pyLower c.address = addr))).getLast?

/-- The final pass over one score entry: add the centrality bonus
`min(25, degree * 5)` once, if a record exists, then clamp the score to
at most 100. -/
def finalize_score (centrality : List Centrality) (r : RiskScore) :
    RiskScore :=
  let r' :=
    match central_lookup centrality r.address with
    | some c =>
        (⟨r.address, r.score + min 25 ((c.degree : ℤ) * 5),
          r.factors ++ [Factor.centrality c.degree]⟩ : RiskScore)
    | Option.none => r
  ⟨r'.address, min 100 r'.score, r'.factors⟩

/-- `score_wallet_activity`: zero scores for the lower-cased watchlist,
anomaly and large-transfer passes, centrality bonus and clamp, then a
stable descending sort by final score. -/
def score_wallet_activity (watched_addresses : List String)
    (anomalies : List Anomaly) (large_transfers : List LargeTransfer)
    (centrality : List Centrality) : List RiskScore :=
  let scores0 := init_scores (watched_addresses.map pyLower)
  let scores1 := anomalies.foldl apply_anomaly scores0
  let scores2 := large_transfers.foldl apply_large_transfer scores1
  let scores3 := scores2.map (finalize_score centrality)
  sortDesc (fun r => r.score) scores3

/-- `SEVERITY_RANK` in its source (insertion) order. -/
def SEVERITY_RANK : List (String × ℕ) :=
  [("low", 0), ("medium", 1), ("high", 2)]

/-- `SEVERITY_DEFAULTS`: the fixed severity lookup by alert category. -/
def SEVERITY_DEFAULTS : List (String × String) :=
  [("value_anomaly", "medium"), ("large_transfer", "high"),
   ("centrality", "medium"), ("trend", "high"), ("heuristic", "medium"),
   ("price_impact", "high"), ("wash_trade", "high"),
   ("transaction_risk", "medium")]

/-- `SEVERITY_RANK.get(severity, 0)`. -/
def severity_rank (s : String) : ℕ :=
  ((SEVERITY_RANK.find? (fun kv => kv.1 == s)).map Prod.snd).getD 0

/-- `SEVERITY_DEFAULTS.get(category, "medium")`. -/
def default_severity (category : String) : String :=
  ((SEVERITY_DEFAULTS.find? (fun kv => kv.1 == category)).map
    Prod.snd).getD "medium"

/-- `max([rank(sev) for alert in alerts] or [0])` over the alerts'
severity strings. -/
def max_severity_rank (sevs : List String) : ℕ :=
  (sevs.map severity_rank).foldl max 0

/-- The two-line label recovery: the first `SEVERITY_RANK` key whose rank
equals the maximum, defaulting to `"low"`. -/
def severity_label (sevs : List String) : String :=
  (((SEVERITY_RANK.filter (fun kv => kv.2 == max_severity_rank sevs)).map
    Prod.fst).head?).getD "low"

/-- `"clear" if not alerts else "suspected_fraud"`, over the alerts'
severity strings (one per synthesized alert). -/
def overall_verdict (sevs : List String) : String :=
  if sevs.isEmpty then "clear" else "suspected_fraud"

/-- Modelled from the spec's words, for comparison with the code's
`severity_label`: the maximum severity present under
low < medium < high, or `"low"` when there are none. -/
def spec_max_severity (sevs : List String) : String :=
  if "high" ∈ sevs then "high"
  else if "medium" ∈ sevs then "medium"
  else "low"

/-- A JSON-shaped value as handled by `_sanitize_large_ints`: `None`,
bool, int, float, string, list, or dict. -/
inductive JVal where
  | jnull
  | jbool (b : Bool)
  | jint (n : ℤ)
  | jrat (q : ℚ)
  | jstr (s : String)
  | jarr (items : List JVal)
  | jobj (fields : List (String × JVal))

/-- The signed-64-bit magnitude limit `2**63 - 1`. -/
def INT64_LIMIT : ℤ := 2 ^ 63 - 1

mutual

/-- `_sanitize_large_ints`: recurse through dicts and lists, replace any
integer of magnitude above `INT64_LIMIT` by its decimal string, and leave
everything else unchanged. -/
def sanitize_large_ints : JVal → JVal
  | JVal.jnull => JVal.jnull
  | JVal.jbool b => JVal.jbool b
  | JVal.jint n =>
      if |n| > INT64_LIMIT then JVal.jstr (toString n) else JVal.jint n
  | JVal.jrat q => JVal.jrat q
  | JVal.jstr s => JVal.jstr s
  | JVal.jarr items => JVal.jarr (sanitize_items items)
  | JVal.jobj fields => JVal.jobj (sanitize_fields fields)

/-- The list comprehension of `_sanitize_large_ints` over a list. -/
def sanitize_items : List JVal → List JVal
  | [] => []
  | v :: rest => sanitize_large_ints v :: sanitize_items rest

/-- The dict comprehension of `_sanitize_large_ints` over key-value
pairs. -/
def sanitize_fields : List (String × JVal) → List (String × JVal)
  | [] => []
  | (k, v) :: rest => (k, sanitize_large_ints v) :: sanitize_fields rest

end

mutual

/-- `true` when no integer of magnitude above `INT64_LIMIT` occurs
anywhere in the value. -/
def noBigInt : JVal → Bool
  | JVal.jnull => true
  | JVal.jbool _ => true
  | JVal.jint n => decide (|n| ≤ INT64_LIMIT)
  | JVal.jrat _ => true
  | JVal.jstr _ => true
  | JVal.jarr items => noBigIntItems items
  | JVal.jobj fields => noBigIntFields fields

/-- `noBigInt` over every element of a list. -/
def noBigIntItems : List JVal → Bool
  | [] => true
  | v :: rest => noBigInt v && noBigIntItems rest

/-- `noBigInt` over every value of a field list. -/
def noBigIntFields : List (String × JVal) → Bool
  | [] => true
  | (_, v) :: rest => noBigInt v && noBigIntFields rest

end

/-- A value stored in a transaction mapping: `None`, an integer, a
string, or the list of risk-flag strings the labeler attaches. -/
inductive TxVal where
  | none
  | int (n : ℤ)
  | str (s : String)
  | flags (fs : List String)
deriving DecidableEq, Repr

/-- A transaction: a flat, insertion-ordered mapping of named fields. -/
abbrev Tx := List (String × TxVal)

/-- `tx.get(k)`: the first value stored under `k`, if any. -/
def txGet (tx : Tx) (k : String) : Option TxVal :=
  (tx.find? (fun kv => kv.1 == k)).map Prod.snd

/-- Python truthiness of a transaction value. -/
def txvTruthy : TxVal → Bool
  | TxVal.none => false
  | TxVal.int n => n != 0
  | TxVal.str s => s != ""
  | TxVal.flags fs => !fs.isEmpty

/-- `tx.get(k1) or tx.get(k2)`: the first lookup unless it is missing or
falsy. -/
def txGetOr (tx : Tx) (k1 k2 : String) : Option TxVal :=
  match txGet tx k1 with
  | some v => if txvTruthy v then some v else txGet tx k2
  | Option.none => txGet tx k2

/-- `if addr and addr.lower() in watch`: a missing or falsy value is not
watched; a truthy string is lower-cased and tested; `.lower()` on any
other truthy value raises an `AttributeError`. -/
def addr_in_watch (v : Option TxVal) (watch : List String) :
    Except String Bool :=
  match v with
  | Option.none => Except.ok false
  | some w =>
      if txvTruthy w then
        match w with
        | TxVal.str s => Except.ok (watch.contains (pyLower s))
        | _ => Except.error "AttributeError: lower"
      else Except.ok false

/-- `_maybe_hex_to_int(tx.get("value"))` over transaction values: a
missing key or `None` gives `None`, integers pass through, strings are
parsed, anything else gives `None`. -/
def tx_maybe_hex_to_int : Option TxVal → Option ℤ
  | Option.none => Option.none
  | some TxVal.none => Option.none
  | some (TxVal.int n) => some n
  | some (TxVal.str s) => pyIntOfString s
  | some (TxVal.flags _) => Option.none

/-- `{**tx, k: v}`: replace the value under `k` in place if the key
exists, otherwise append the new key at the end. -/
def txSet (tx : Tx) (k : String) (v : TxVal) : Tx :=
  if tx.any (fun kv => kv.1 == k) then
    tx.map (fun kv => if kv.1 == k then (kv.1, v) else kv)
  else tx ++ [(k, v)]

/-- The loop body of `label_transaction_risk` for one transaction: parse
the value, resolve sender (`from` falling back to `from_`) and recipient
(`to`), collect the risk flags in source order, and attach them as the
`risk_flags` key. -/
def label_tx (watch : List String) (large_value_threshold : ℤ)
    (tx : Tx) : Except String Tx := do
  let value := tx_maybe_hex_to_int (txGet tx "value")
  let sender := txGetOr tx "from" "from_"
  let recipient := txGet tx "to"
  let sflag ← addr_in_watch sender watch
  let rflag ← addr_in_watch recipient watch
  let big :=
    match value with
    | some v => decide (v ≥ large_value_threshold)
    | Option.none => false
  let risk_flags :=
    (if sflag then ["sender_watchlist"] else []) ++
    (if rflag then ["recipient_watchlist"] else []) ++
    (if big then ["large_value"] else [])
  pure (txSet tx "risk_flags" (TxVal.flags risk_flags))

/-- `label_transaction_risk`: label every transaction of the batch
against the lower-cased watchlist and the large-value threshold. -/
def label_transaction_risk (transactions : List Tx)
    (watchlist : List String) (large_value_threshold : ℤ) :
    Except String (List Tx) :=
  transactions.mapM (label_tx (watchlist.map pyLower)
    large_value_threshold)

/-- The count stored under key `k` in the pair-counter (0 if absent). -/
def edgeCount : List ((String × String) × ℕ) → (String × String) → ℕ
  | [], _ => 0
  | (k', c) :: rest, k => if k' = k then c else edgeCount rest k


/-- The element-level action of `bump_score` on one score entry. -/
def bump1 (addr : Option String) (pts : ℤ) (f : Factor)
    (r : RiskScore) : RiskScore :=
  match addr with
  | Option.none => r
  | some a =>
      if a = "" then r
      else if r.address = pyLower a then
        ⟨r.address, r.score + pts, r.factors ++ [f]⟩
      else r

/-- The element-level action of one anomaly finding (sender bump, then
receiver bump, 20 points each). -/
def anomaly1 (an : Anomaly) (r : RiskScore) : RiskScore :=
  match extract_transfer an.event with
  | (sender, receiver, value) =>
      bump1 receiver 20 (Factor.z_score_anomaly an.z_score value)
        (bump1 sender 20 (Factor.z_score_anomaly an.z_score value) r)

/-- The element-level action of one large-transfer finding (15 points per
watched endpoint). -/
def large1 (lt : LargeTransfer) (r : RiskScore) : RiskScore :=
  match extract_transfer lt.event with
  | (sender, receiver, _) =>
      bump1 receiver 15 (Factor.large_transfer lt.value)
        (bump1 sender 15 (Factor.large_transfer lt.value) r)

/-- The anomaly pass, elementwise. -/
def passA : List Anomaly → RiskScore → RiskScore
  | [], r => r
  | an :: rest, r => passA rest (anomaly1 an r)

/-- The large-transfer pass, elementwise. -/
def passL : List LargeTransfer → RiskScore → RiskScore
  | [], r => r
  | lt :: rest, r => passL rest (large1 lt r)

/-- An event mentions (lower-cased) address `x` when one of its endpoints
is a non-empty string lower-casing to `x`. -/
def touches_event (e : DecodedEvent) (x : String) : Prop :=
  ∃ a : String,
    ((extract_transfer e).1 = some a ∨ (extract_transfer e).2.1 = some a) ∧
    a ≠ "" ∧ pyLower a = x


/-- One step of the watchlist-initialization fold. -/
def initStep (acc : List RiskScore) (a : String) : List RiskScore :=
  if acc.any (fun r => r.address == a) then acc else acc ++ [⟨a, 0, []⟩]


mutual

/-- After sanitization no oversized integer remains in a value. -/
def sanitize_noBig_val : (v : JVal) →
    noBigInt (sanitize_large_ints v) = true
  | JVal.jnull => rfl
  | JVal.jbool _ => rfl
  | JVal.jrat _ => rfl
  | JVal.jstr _ => rfl
  | JVal.jint n => by
      by_cases h : |n| > INT64_LIMIT
      · simp [sanitize_large_ints, h, noBigInt]
      · simp [sanitize_large_ints, h, noBigInt]
        omega
  | JVal.jarr items => by
      simpa [sanitize_large_ints, noBigInt] using sanitize_noBig_items items
  | JVal.jobj fields => by
      simpa [sanitize_large_ints, noBigInt] using sanitize_noBig_fields fields

/-- After sanitization no oversized integer remains in a list. -/
def sanitize_noBig_items : (l : List JVal) →
    noBigIntItems (sanitize_items l) = true
  | [] => rfl
  | v :: rest => by
      simp [sanitize_items, noBigIntItems, sanitize_noBig_val v,
        sanitize_noBig_items rest]

/-- After sanitization no oversized integer remains in a field list. -/
def sanitize_noBig_fields : (l : List (String × JVal)) →
    noBigIntFields (sanitize_fields l) = true
  | [] => rfl
  | (_, v) :: rest => by
      simp [sanitize_fields, noBigIntFields, sanitize_noBig_val v,
        sanitize_noBig_fields rest]

end

mutual

/-- A value without oversized integers is left unchanged. -/
def sanitize_id_val : (v : JVal) → noBigInt v = true →
    sanitize_large_ints v = v
  | JVal.jnull, _ => rfl
  | JVal.jbool _, _ => rfl
  | JVal.jrat _, _ => rfl
  | JVal.jstr _, _ => rfl
  | JVal.jint n, h => by
      simp [noBigInt] at h
      simp [sanitize_large_ints]
      omega
  | JVal.jarr items, h => by
      simp [noBigInt] at h
      simp [sanitize_large_ints, sanitize_id_items items h]
  | JVal.jobj fields, h => by
      simp [noBigInt] at h
      simp [sanitize_large_ints, sanitize_id_fields fields h]

/-- A list without oversized integers is left unchanged. -/
def sanitize_id_items : (l : List JVal) → noBigIntItems l = true →
    sanitize_items l = l
  | [], _ => rfl
  | v :: rest, h => by
      simp [noBigIntItems] at h
      simp [sanitize_items, sanitize_id_val v h.1, sanitize_id_items rest h.2]

/-- A field list without oversized integers is left unchanged. -/
def sanitize_id_fields : (l : List (String × JVal)) →
    noBigIntFields l = true → sanitize_fields l = l
  | [], _ => rfl
  | (_, v) :: rest, h => by
      simp [noBigIntFields] at h
      simp [sanitize_fields, sanitize_id_val v h.1,
        sanitize_id_fields rest h.2]

end

/-- C3: `detect_large_transfers` does **not** silently skip a `None`
primary value: at a single-event batch whose first body value is `None`,
the `int(raw_value)` coercion raises instead of skipping, contradicting
the silent-skip error policy. -/
theorem detect_large_transfers_raises_on_none :
    detect_large_transfers [⟨[], [PVal.none]⟩] 1 =
      Except.error "TypeError: int() argument is None" := rfl

/-- C9: after `_sanitize_large_ints` no integer of magnitude above
`2^63 - 1` remains anywhere in the nested structure; every oversized
integer is replaced by its decimal string; and any value containing no
oversized integer is returned unchanged. -/
theorem sanitize_large_ints_spec (v : JVal) :
    noBigInt (sanitize_large_ints v) = true ∧
    (noBigInt v = true → sanitize_large_ints v = v) ∧
    (∀ n : ℤ, |n| > INT64_LIMIT →
      sanitize_large_ints (JVal.jint n) = JVal.jstr (toString n)) := by
  refine ⟨sanitize_noBig_val v, sanitize_id_val v, fun n hn => ?_⟩
  simp [sanitize_large_ints, hn]

/-- C9 witness: `2^64` exceeds the signed-64-bit limit and is rewritten
to its decimal string. -/
theorem sanitize_large_ints_spec_witness :
    sanitize_large_ints (JVal.jint (2 ^ 64)) =
      JVal.jstr (toString ((2 : ℤ) ^ 64)) :=
  (sanitize_large_ints_spec (JVal.jint (2 ^ 64))).2.2 (2 ^ 64)
    (by norm_num [INT64_LIMIT])

/-- Unfolding of `z_scores` on a batch of at least two values. -/
theorem z_scores_cons_cons (a b : ℝ) (t : List ℝ) :
    z_scores (a :: b :: t) =
      if Real.sqrt ((((a :: b :: t).map (fun v =>
            (v - (a :: b :: t).sum / ((a :: b :: t).length : ℝ)) ^ 2)).sum) /
          ((a :: b :: t).length : ℝ)) = 0 then
        (a :: b :: t).map (fun _ => 0)
      else
        (a :: b :: t).map (fun v =>
          (v - (a :: b :: t).sum / ((a :: b :: t).length : ℝ)) /
            Real.sqrt ((((a :: b :: t).map (fun w =>
                (w - (a :: b :: t).sum / ((a :: b :: t).length : ℝ)) ^ 2)).sum) /
              ((a :: b :: t).length : ℝ))) := rfl

/-- C7: the z-score calculator returns `[]` on empty input, `[0.0]` on a
single element, all zeros when the population standard deviation is zero,
and otherwise one z-score per element computed with the population
standard deviation, always preserving length. -/
theorem z_scores_spec (values : List ℝ) :
    (z_scores values).length = values.length ∧
    (values = [] → z_scores values = []) ∧
    (values.length = 1 → z_scores values = [0]) ∧
    (2 ≤ values.length →
      Real.sqrt (((values.map (fun v =>
          (v - values.sum / values.length) ^ 2)).sum) / values.length) = 0 →
      z_scores values = values.map (fun _ => 0)) ∧
    (2 ≤ values.length →
      Real.sqrt (((values.map (fun v =>
          (v - values.sum / values.length) ^ 2)).sum) / values.length) ≠ 0 →
      z_scores values = values.map (fun v =>
        (v - values.sum / values.length) /
          Real.sqrt (((values.map (fun w =>
            (w - values.sum / values.length) ^ 2)).sum) / values.length))) := by
  rcases values with _ | ⟨a, _ | ⟨b, t⟩⟩
  · refine ⟨rfl, fun _ => rfl, ?_, ?_, ?_⟩ <;> intro h <;> simp at h
  · refine ⟨rfl, ?_, fun _ => rfl, ?_, ?_⟩ <;> intro h <;> simp at h
  · rw [z_scores_cons_cons]
    by_cases hsd : Real.sqrt ((((a :: b :: t).map (fun v =>
        (v - (a :: b :: t).sum / ((a :: b :: t).length : ℝ)) ^ 2)).sum) /
        ((a :: b :: t).length : ℝ)) = 0
    · rw [if_pos hsd]
      exact ⟨by simp, by simp, by simp, fun _ _ => rfl,
        fun _ hne => absurd hsd hne⟩
    · rw [if_neg hsd]
      exact ⟨by simp, by simp, by simp, fun _ h => absurd h hsd,
        fun _ _ => rfl⟩

/-- C7 witness: empty and singleton batches. -/
theorem z_scores_spec_witness :
    z_scores [] = [] ∧ z_scores [(7 : ℝ)] = [0] :=
  ⟨(z_scores_spec []).2.1 rfl, (z_scores_spec [7]).2.2.1 rfl⟩

/-- Closed form of the rank lookup: `"high"` ranks 2, `"medium"` ranks 1,
everything else (including `"low"` and unknown strings) ranks 0. -/
theorem severity_rank_eq (s : String) :
    severity_rank s =
      if s = "high" then 2 else if s = "medium" then 1 else 0 := by
  simp only [severity_rank, SEVERITY_RANK, List.find?]
  cases h1 : ("low" == s) with
  | true =>
      have e1 : s = "low" := (beq_iff_eq.mp h1).symm
      subst e1
      decide
  | false =>
      cases h2 : ("medium" == s) with
      | true =>
          have e2 : s = "medium" := (beq_iff_eq.mp h2).symm
          subst e2
          decide
      | false =>
          cases h3 : ("high" == s) with
          | true =>
              have e3 : s = "high" := (beq_iff_eq.mp h3).symm
              subst e3
              decide
          | false =>
              have n2 : s ≠ "medium" := fun e => by
                subst e; simp at h2
              have n3 : s ≠ "high" := fun e => by
                subst e; simp at h3
              simp [n2, n3]

theorem foldl_max_init (l : List ℕ) (a : ℕ) :
    l.foldl max a = max a (l.foldl max 0) := by
  induction l generalizing a with
  | nil => simp
  | cons x xs ih =>
      simp only [List.foldl_cons]
      rw [ih (max a x), ih (max 0 x)]
      omega

theorem max_severity_rank_cons (s : String) (rest : List String) :
    max_severity_rank (s :: rest) =
      max (severity_rank s) (max_severity_rank rest) := by
  simp only [max_severity_rank, List.map_cons, List.foldl_cons]
  rw [foldl_max_init]
  omega

/-- The maximum alert rank in terms of which severities are present. -/
theorem max_severity_rank_char (sevs : List String) :
    max_severity_rank sevs =
      if "high" ∈ sevs then 2 else if "medium" ∈ sevs then 1 else 0 := by
  induction sevs with
  | nil => simp [max_severity_rank]
  | cons s rest ih =>
      rw [max_severity_rank_cons, severity_rank_eq, ih]
      simp only [List.mem_cons]
      by_cases h3 : s = "high" <;> by_cases h2 : s = "medium" <;>
        by_cases hh : "high" ∈ rest <;> by_cases hm : "medium" ∈ rest <;>
        split_ifs <;> simp_all

theorem severity_label_of_rank (sevs : List String) :
    (max_severity_rank sevs = 0 → severity_label sevs = "low") ∧
    (max_severity_rank sevs = 1 → severity_label sevs = "medium") ∧
    (max_severity_rank sevs = 2 → severity_label sevs = "high") := by
  refine ⟨fun h => ?_, fun h => ?_, fun h => ?_⟩ <;>
    simp [severity_label, SEVERITY_RANK, h, List.filter]

theorem default_severity_mem (category : String) :
    default_severity category ∈ ["low", "medium", "high"] := by
  unfold default_severity
  cases hf : SEVERITY_DEFAULTS.find? (fun kv => kv.1 == category) with
  | none => simp
  | some kv =>
      have hm := List.mem_of_find?_eq_some hf
      simp only [SEVERITY_DEFAULTS, List.mem_cons, List.not_mem_nil,
        or_false] at hm
      rcases hm with rfl | rfl | rfl | rfl | rfl | rfl | rfl | rfl <;> simp

/-- C8: the orchestrator summary block computes verdict `"clear"` iff the
alert list is empty (`"suspected_fraud"` otherwise), and a severity label
equal to the maximum severity present under low < medium < high, or
`"low"` when there are no alerts; every category's default severity lies
on that scale, so orchestrator-synthesized alerts never leave it. -/
theorem orchestrator_summary_spec (sevs : List String) :
    (overall_verdict sevs = "clear" ↔ sevs = []) ∧
    (overall_verdict sevs = "suspected_fraud" ↔ sevs ≠ []) ∧
    severity_label sevs = spec_max_severity sevs ∧
    (∀ category, default_severity category ∈ ["low", "medium", "high"]) := by
  refine ⟨?_, ?_, ?_, default_severity_mem⟩
  · unfold overall_verdict
    split_ifs with h <;> simp_all [List.isEmpty_iff]
  · unfold overall_verdict
    split_ifs with h <;> simp_all [List.isEmpty_iff]
  · have hc := max_severity_rank_char sevs
    have hl := severity_label_of_rank sevs
    unfold spec_max_severity
    by_cases hh : "high" ∈ sevs
    · simp only [hh, if_true] at hc ⊢
      exact hl.2.2 hc
    · by_cases hm : "medium" ∈ sevs
      · simp only [hh, hm, if_false, if_true] at hc ⊢
        exact hl.2.1 hc
      · simp only [hh, hm, if_false] at hc ⊢
        exact hl.1 hc

/-- Unfolding of `detect_value_anomalies`. -/
theorem detect_value_anomalies_def (logs : List DecodedEvent) (t : ℝ) :
    detect_value_anomalies logs t =
      (logs.zip (z_scores (logs.filterMap fun e =>
        match e.body with
        | [] => Option.none
        | raw :: _ => (maybe_hex_to_int raw).map (fun n => (n : ℝ))))).filterMap
        (fun p => if |p.2| ≥ t then some ⟨p.1, p.2⟩ else Option.none) := rfl

theorem z_scores_example :
    z_scores [(0 : ℝ), 0, 0, 0, 5] = [-(1/2), -(1/2), -(1/2), -(1/2), 2] := by
  rw [z_scores_cons_cons]
  have harg :
      ((([(0 : ℝ), 0, 0, 0, 5].map (fun v =>
          (v - [(0 : ℝ), 0, 0, 0, 5].sum /
            (([(0 : ℝ), 0, 0, 0, 5].length : ℕ) : ℝ)) ^ 2)).sum) /
        (([(0 : ℝ), 0, 0, 0, 5].length : ℕ) : ℝ)) = 4 := by
    norm_num
  rw [harg]
  have hs : Real.sqrt 4 = 2 := by
    rw [show (4 : ℝ) = 2 ^ 2 by norm_num, Real.sqrt_sq (by norm_num : (0:ℝ) ≤ 2)]
  rw [hs]
  norm_num

/-- C1: the zip misalignment of `detect_value_anomalies`.  In a batch
whose first event has an unparsable (`None`) value, followed by four
events of value 0 and one of value 5 (z-scores −0.5 and 2 over the
parsable population), the detector pairs each event positionally with the
z-score of the *i*-th parsable value: it flags the fourth value-0 event
with z-score 2 and never examines the value-5 outlier, contradicting the
claim that an event is flagged iff its own value's z-score clears the
threshold and that unparsable events never distort the outcome. -/
theorem detect_value_anomalies_misaligned :
    detect_value_anomalies
      [⟨[], [PVal.none]⟩, ⟨[], [PVal.int 0]⟩, ⟨[], [PVal.int 0]⟩,
       ⟨[], [PVal.int 0]⟩, ⟨[], [PVal.int 0]⟩, ⟨[], [PVal.int 5]⟩] 2 =
      [⟨⟨[], [PVal.int 0]⟩, 2⟩] := by
  rw [detect_value_anomalies_def]
  have hered :
      ([(⟨[], [PVal.none]⟩ : DecodedEvent), ⟨[], [PVal.int 0]⟩,
        ⟨[], [PVal.int 0]⟩, ⟨[], [PVal.int 0]⟩, ⟨[], [PVal.int 0]⟩,
        ⟨[], [PVal.int 5]⟩].filterMap fun e =>
          match e.body with
          | [] => Option.none
          | raw :: _ => (maybe_hex_to_int raw).map (fun n => (n : ℝ))) =
        [(0 : ℝ), 0, 0, 0, 5] := by
    norm_num [List.filterMap_cons, maybe_hex_to_int]
  rw [hered, z_scores_example]
  have h12 : ¬ ((2 : ℝ) ≤ |(1 : ℝ)/2|) := by
    rw [show |(1 : ℝ)/2| = 1/2 from abs_of_nonneg (by norm_num)]
    norm_num
  have h2 : ((2 : ℝ) ≤ |(2 : ℝ)|) := by
    rw [show |(2 : ℝ)| = 2 from abs_of_nonneg (by norm_num)]
  simp only [List.zip, List.zipWith, List.filterMap_cons]
  norm_num [h12, h2]

/-- C4: the price-impact analyzer is the fold of a single-scalar state
machine over the ordered batch.  A short, undecodable, notional-rejected,
or zero-liquidity event leaves the state (previous price and findings)
unchanged; the first valid event seeds the previous price without a
finding; a valid event seen while the previous price is exactly zero
reseeds it without comparison; and any other valid event updates the
previous price and emits a finding exactly when the basis-point delta
reaches the threshold. -/
theorem analyze_swap_price_impact_spec (bps : ℚ) (mn : Option ℤ)
    (st : SwapState) (e : DecodedEvent) :
    (∀ logs : List DecodedEvent,
      analyze_swap_price_impact logs bps mn =
        (logs.foldl (swap_step bps mn) ⟨Option.none, []⟩).findings) ∧
    (e.body.length < 4 ∨ e.indexed.length < 3 →
      swap_step bps mn st e = st) ∧
    (∀ a0r a1r sqr lqr br i0 i1 i2 ir,
      e.body = a0r :: a1r :: sqr :: lqr :: br →
      e.indexed = i0 :: i1 :: i2 :: ir →
      (maybe_hex_to_int a0r = Option.none ∨
       maybe_hex_to_int a1r = Option.none ∨
       maybe_hex_to_int sqr = Option.none ∨
       maybe_hex_to_int lqr = Option.none) →
      swap_step bps mn st e = st) ∧
    (∀ a0r a1r sqr lqr br i0 i1 i2 ir a0 a1 sq lq,
      e.body = a0r :: a1r :: sqr :: lqr :: br →
      e.indexed = i0 :: i1 :: i2 :: ir →
      maybe_hex_to_int a0r = some a0 →
      maybe_hex_to_int a1r = some a1 →
      maybe_hex_to_int sqr = some sq →
      maybe_hex_to_int lqr = some lq →
      (notional_rejects mn a0 a1 = true → swap_step bps mn st e = st) ∧
      (notional_rejects mn a0 a1 = false → lq = 0 →
        swap_step bps mn st e = st) ∧
      (notional_rejects mn a0 a1 = false → lq ≠ 0 →
        (st.prev_price = Option.none →
          swap_step bps mn st e = ⟨some (swap_price sq), st.findings⟩) ∧
        (st.prev_price = some 0 →
          swap_step bps mn st e = ⟨some (swap_price sq), st.findings⟩) ∧
        (∀ p, st.prev_price = some p → p ≠ 0 →
          swap_step bps mn st e =
            ⟨some (swap_price sq),
              if |swap_price sq - p| / p * 10000 ≥ bps then
                st.findings ++
                  [⟨swap_price sq, p, |swap_price sq - p| / p * 10000,
                    a0, a1, lq, i1⟩]
              else st.findings⟩))) := by
  obtain ⟨il, bl⟩ := e
  refine ⟨fun logs => rfl, ?_, ?_, ?_⟩
  · intro hshort
    rcases bl with _ | ⟨a0r, _ | ⟨a1r, _ | ⟨sqr, _ | ⟨lqr, br⟩⟩⟩⟩ <;>
      rcases il with _ | ⟨i0, _ | ⟨i1, _ | ⟨i2, ir⟩⟩⟩ <;>
      first
        | rfl
        | (exfalso; simp only [List.length_cons] at hshort; omega)
  · intro a0r a1r sqr lqr br i0 i1 i2 ir hb hi hfail
    simp only [DecodedEvent.mk.injEq] at hb hi ⊢
    subst hb
    subst hi
    rcases hfail with h | h | h | h <;>
      cases hx0 : maybe_hex_to_int a0r <;>
      cases hx1 : maybe_hex_to_int a1r <;>
      cases hx2 : maybe_hex_to_int sqr <;>
      cases hx3 : maybe_hex_to_int lqr <;>
      simp_all [swap_step]
  · intro a0r a1r sqr lqr br i0 i1 i2 ir a0 a1 sq lq hb hi h0 h1 h2 h3
    subst hb
    subst hi
    refine ⟨?_, ?_, ?_⟩
    · intro hn
      simp [swap_step, h0, h1, h2, h3, hn]
    · intro hn hl
      simp [swap_step, h0, h1, h2, h3, hn, hl]
    · intro hn hl
      obtain ⟨pp, fnd⟩ := st
      refine ⟨?_, ?_, ?_⟩
      · intro hp
        simp only at hp
        subst hp
        simp [swap_step, h0, h1, h2, h3, hn, hl]
      · intro hp
        simp only at hp
        subst hp
        simp [swap_step, h0, h1, h2, h3, hn, hl]
      · intro p hp hpne
        simp only at hp
        subst hp
        simp only [swap_step, h0, h1, h2, h3, hn, hl, if_false, hpne]
        split_ifs <;> simp_all

/-- C4 witness: a first valid swap event seeds the previous price without
emitting a finding. -/
theorem analyze_swap_price_impact_spec_witness :
    swap_step 50 Option.none ⟨Option.none, []⟩
      ⟨[some "s", some "r", some "p"],
        [PVal.int 1, PVal.int 1, PVal.int (2 ^ 96), PVal.int 5]⟩ =
      ⟨some (swap_price (2 ^ 96)), []⟩ :=
  (((analyze_swap_price_impact_spec 50 Option.none ⟨Option.none, []⟩
      ⟨[some "s", some "r", some "p"],
        [PVal.int 1, PVal.int 1, PVal.int (2 ^ 96), PVal.int 5]⟩).2.2.2
    (PVal.int 1) (PVal.int 1) (PVal.int (2 ^ 96)) (PVal.int 5) []
    (some "s") (some "r") (some "p") [] 1 1 (2 ^ 96) 5
    rfl rfl rfl rfl rfl rfl).2.2 rfl (by decide)).1 rfl

theorem edgeCount_nil (k : String × String) : edgeCount [] k = 0 := rfl

theorem edgeCount_cons (k0 : String × String) (c0 : ℕ)
    (rest : List ((String × String) × ℕ)) (k : String × String) :
    edgeCount ((k0, c0) :: rest) k =
      if k0 = k then c0 else edgeCount rest k := rfl

theorem bumpEdge_cons (k0 : String × String) (c0 : ℕ)
    (rest : List ((String × String) × ℕ)) (k : String × String) :
    bumpEdge ((k0, c0) :: rest) k =
      if k0 = k then (k0, c0 + 1) :: rest
      else (k0, c0) :: bumpEdge rest k := rfl

theorem bumpEdge_count (ed : List ((String × String) × ℕ))
    (k k' : String × String) :
    edgeCount (bumpEdge ed k) k' =
      edgeCount ed k' + (if k = k' then 1 else 0) := by
  induction ed with
  | nil =>
      show (if k = k' then 1 else 0) = 0 + (if k = k' then 1 else 0)
      omega
  | cons kc rest ih =>
      obtain ⟨k0, c0⟩ := kc
      rw [bumpEdge_cons]
      by_cases h0 : k0 = k
      · rw [if_pos h0, edgeCount_cons, edgeCount_cons]
        by_cases h1 : k0 = k'
        · rw [if_pos h1, if_pos (h0.symm.trans h1), if_pos h1]
        · rw [if_neg h1, if_neg (fun e : k = k' => h1 (h0.trans e)),
            if_neg h1]
          omega
      · rw [if_neg h0, edgeCount_cons, edgeCount_cons]
        by_cases h1 : k0 = k'
        · rw [if_pos h1, if_pos h1,
            if_neg (fun e : k = k' => h0 (h1.trans e.symm))]
          omega
        · rw [if_neg h1, if_neg h1, ih]

theorem foldl_bumpEdge_count (l : List (String × String))
    (ed : List ((String × String) × ℕ)) (k : String × String) :
    edgeCount (l.foldl bumpEdge ed) k = edgeCount ed k + l.count k := by
  induction l generalizing ed with
  | nil => simp
  | cons x xs ih =>
      simp only [List.foldl_cons, ih, bumpEdge_count, List.count_cons]
      by_cases h : x = k
      · subst h
        simp
        omega
      · have h' : ¬ (k = x) := fun e => h e.symm
        simp [h, h', beq_iff_eq]

theorem bumpEdge_keys_mem (ed : List ((String × String) × ℕ))
    (k k' : String × String) :
    k' ∈ (bumpEdge ed k).map Prod.fst ↔
      k' ∈ ed.map Prod.fst ∨ k' = k := by
  induction ed with
  | nil => simp [bumpEdge]
  | cons kc rest ih =>
      obtain ⟨k0, c0⟩ := kc
      rw [bumpEdge_cons]
      by_cases h0 : k0 = k
      · rw [if_pos h0]
        simp only [List.map_cons, List.mem_cons]
        constructor
        · rintro (rfl | hm)
          · exact Or.inl (Or.inl rfl)
          · exact Or.inl (Or.inr hm)
        · rintro ((rfl | hm) | rfl)
          · exact Or.inl rfl
          · exact Or.inr hm
          · exact Or.inl h0.symm
      · rw [if_neg h0]
        simp only [List.map_cons, List.mem_cons, ih]
        tauto

theorem foldl_bumpEdge_keys_mem (l : List (String × String))
    (ed : List ((String × String) × ℕ)) (k : String × String) :
    k ∈ (l.foldl bumpEdge ed).map Prod.fst ↔
      k ∈ ed.map Prod.fst ∨ k ∈ l := by
  induction l generalizing ed with
  | nil => simp
  | cons x xs ih =>
      simp only [List.foldl_cons, ih, bumpEdge_keys_mem, List.mem_cons]
      tauto

theorem bumpEdge_keys_nodup (ed : List ((String × String) × ℕ))
    (k : String × String) (h : (ed.map Prod.fst).Nodup) :
    ((bumpEdge ed k).map Prod.fst).Nodup := by
  induction ed with
  | nil => simp [bumpEdge]
  | cons kc rest ih =>
      obtain ⟨k0, c0⟩ := kc
      simp only [List.map_cons, List.nodup_cons] at h
      rw [bumpEdge_cons]
      by_cases h0 : k0 = k
      · rw [if_pos h0]
        simp only [List.map_cons, List.nodup_cons]
        exact h
      · rw [if_neg h0]
        simp only [List.map_cons, List.nodup_cons]
        refine ⟨?_, ih h.2⟩
        rw [bumpEdge_keys_mem]
        rintro (hmem | rfl)
        · exact h.1 hmem
        · exact h0 rfl

theorem foldl_bumpEdge_keys_nodup (l : List (String × String))
    (ed : List ((String × String) × ℕ))
    (h : (ed.map Prod.fst).Nodup) :
    ((l.foldl bumpEdge ed).map Prod.fst).Nodup := by
  induction l generalizing ed with
  | nil => exact h
  | cons x xs ih => exact ih _ (bumpEdge_keys_nodup _ _ h)

/-- In a counter with duplicate-free keys, the entries are exactly the
present keys paired with their stored counts. -/
theorem assoc_mem_iff (ed : List ((String × String) × ℕ))
    (h : (ed.map Prod.fst).Nodup) (k : String × String) (c : ℕ) :
    (k, c) ∈ ed ↔ k ∈ ed.map Prod.fst ∧ edgeCount ed k = c := by
  induction ed with
  | nil => simp
  | cons kc rest ih =>
      obtain ⟨k0, c0⟩ := kc
      simp only [List.map_cons, List.nodup_cons] at h
      simp only [List.mem_cons, List.map_cons, Prod.mk.injEq, edgeCount_cons]
      by_cases h0 : k0 = k
      · rw [if_pos h0]
        constructor
        · rintro (⟨-, rfl⟩ | hmem)
          · exact ⟨Or.inl h0.symm, rfl⟩
          · exfalso
            rw [h0] at h
            exact h.1 (List.mem_map.mpr ⟨(k, c), hmem, rfl⟩)
        · rintro ⟨-, rfl⟩
          exact Or.inl ⟨h0.symm, rfl⟩
      · rw [if_neg h0, ih h.2]
        have h0' : ¬ (k = k0 ∧ c = c0) := fun hc => h0 hc.1.symm
        constructor
        · rintro (hc | ⟨hmem, hc⟩)
          · exact absurd hc h0'
          · exact ⟨Or.inr hmem, hc⟩
        · rintro ⟨(heq | hmem), hc⟩
          · exact absurd heq (fun e => h0 e.symm)
          · exact Or.inr ⟨hmem, hc⟩

/-- Unfolding of `detect_swap_wash_trades`. -/
theorem detect_swap_wash_trades_def (logs : List DecodedEvent) (m : ℕ) :
    detect_swap_wash_trades logs m =
      ((logs.filterMap wash_event_key).foldl bumpEdge []).filterMap
        (fun kc =>
          if kc.2 ≥ m then some ⟨[kc.1.1, kc.1.2], kc.2⟩
          else Option.none) := rfl

theorem wash_participants_eq (m : ℕ)
    (edges : List ((String × String) × ℕ)) :
    (edges.filterMap (fun kc =>
        if kc.2 ≥ m then some (⟨[kc.1.1, kc.1.2], kc.2⟩ : WashTrade)
        else Option.none)).map WashTrade.participants =
      ((edges.filter (fun kc => decide (kc.2 ≥ m))).map Prod.fst).map
        (fun k => [k.1, k.2]) := by
  induction edges with
  | nil => rfl
  | cons kc rest ih =>
      by_cases h : kc.2 ≥ m <;>
        simp [List.filterMap_cons, List.filter_cons, h, ih]

theorem charListLe_total (a b : List Char) :
    charListLe a b = true ∨ charListLe b a = true := by
  induction a generalizing b with
  | nil => exact Or.inl rfl
  | cons x xs ih =>
      cases b with
      | nil => exact Or.inr rfl
      | cons y ys =>
          simp only [charListLe]
          rcases Nat.lt_trichotomy x.toNat y.toNat with h | h | h
          · left
            rw [if_pos h]
          · rw [if_neg (by omega), if_neg (by omega),
              if_neg (by omega), if_neg (by omega)]
            exact ih ys
          · right
            rw [if_pos h]

theorem charListLe_antisymm (a b : List Char)
    (hab : charListLe a b = true) (hba : charListLe b a = true) : a = b := by
  induction a generalizing b with
  | nil =>
      cases b with
      | nil => rfl
      | cons y ys => simp [charListLe] at hba
  | cons x xs ih =>
      cases b with
      | nil => simp [charListLe] at hab
      | cons y ys =>
          simp only [charListLe] at hab hba
          rcases Nat.lt_trichotomy x.toNat y.toNat with h | h | h
          · rw [if_neg (by omega), if_pos h] at hba
            exact absurd hba (by simp)
          · rw [if_neg (by omega), if_neg (by omega)] at hab
            rw [if_neg (by omega), if_neg (by omega)] at hba
            have hx : x = y := by
              have hv : x.val = y.val := by
                unfold Char.toNat at h
                exact UInt32.toNat.inj h
              exact Char.eq_of_val_eq hv
            rw [hx, ih ys hab hba]
          · rw [if_neg (by omega), if_pos h] at hab
            exact absurd hab (by simp)

theorem pyStrLe_total (a b : String) :
    pyStrLe a b = true ∨ pyStrLe b a = true :=
  charListLe_total a.data b.data

theorem pyStrLe_antisymm (a b : String)
    (hab : pyStrLe a b = true) (hba : pyStrLe b a = true) : a = b := by
  cases a with
  | mk da =>
      cases b with
      | mk db =>
          have := charListLe_antisymm da db hab hba
          rw [this]

theorem wash_key_comm (s r : String) : wash_key s r = wash_key r s := by
  unfold wash_key
  cases hab : pyStrLe (pyLower s) (pyLower r) <;>
    cases hba : pyStrLe (pyLower r) (pyLower s)
  · rcases pyStrLe_total (pyLower s) (pyLower r) with h | h
    · rw [h] at hab
      exact absurd hab (by simp)
    · rw [h] at hba
      exact absurd hba (by simp)
  · rw [if_neg (by simp [hab]), if_pos hba]
  · rw [if_pos hab, if_neg (by simp [hba])]
  · have he := pyStrLe_antisymm _ _ hab hba
    rw [he]

/-- C5: wash-trade pair counting is symmetric and case-insensitive, and
the detector emits exactly one finding per unordered lower-cased pair
whose event count reaches `max_swaps`, carrying the two participants and
the count. -/
theorem detect_swap_wash_trades_spec (logs : List DecodedEvent)
    (max_swaps : ℕ) :
    (∀ a b c, (⟨[a, b], c⟩ : WashTrade) ∈
        detect_swap_wash_trades logs max_swaps ↔
      ((a, b) ∈ logs.filterMap wash_event_key ∧
        c = (logs.filterMap wash_event_key).count (a, b) ∧
        max_swaps ≤ c)) ∧
    ((detect_swap_wash_trades logs max_swaps).map
      WashTrade.participants).Nodup ∧
    (∀ f ∈ detect_swap_wash_trades logs max_swaps,
      ∃ a b, f.participants = [a, b]) ∧
    (∀ s r, wash_key s r = wash_key r s) ∧
    (∀ s s' r r', pyLower s = pyLower s' → pyLower r = pyLower r' →
      wash_key s r = wash_key s' r') := by
  have hnd : ((((logs.filterMap wash_event_key).foldl bumpEdge [])).map
      Prod.fst).Nodup :=
    foldl_bumpEdge_keys_nodup _ [] (by simp)
  refine ⟨?_, ?_, ?_, wash_key_comm, ?_⟩
  · intro a b c
    rw [detect_swap_wash_trades_def]
    rw [List.mem_filterMap]
    constructor
    · rintro ⟨kc, hkc, hpick⟩
      by_cases h : kc.2 ≥ max_swaps
      · rw [if_pos h] at hpick
        have hkc' : kc = ((a, b), c) := by
          obtain ⟨⟨k1, k2⟩, cc⟩ := kc
          simp only [Option.some.injEq, WashTrade.mk.injEq,
            List.cons.injEq] at hpick
          obtain ⟨⟨h1, h2, -⟩, h3⟩ := hpick
          simp [h1, h2, h3]
        subst hkc'
        have := (assoc_mem_iff _ hnd (a, b) c).mp hkc
        rw [foldl_bumpEdge_keys_mem, foldl_bumpEdge_count,
          edgeCount_nil] at this
        simp only [List.map_nil, List.not_mem_nil, false_or] at this
        exact ⟨this.1, by omega, h⟩
      · rw [if_neg h] at hpick
        exact absurd hpick (by simp)
    · rintro ⟨hmem, hc, hms⟩
      refine ⟨((a, b), c), ?_, ?_⟩
      · rw [assoc_mem_iff _ hnd, foldl_bumpEdge_keys_mem,
          foldl_bumpEdge_count, edgeCount_nil]
        simp only [List.map_nil, List.not_mem_nil, false_or]
        exact ⟨hmem, by omega⟩
      · rw [if_pos hms]
  · rw [detect_swap_wash_trades_def, wash_participants_eq]
    refine List.Nodup.map ?_ (List.Sublist.nodup
      (List.Sublist.map Prod.fst (List.filter_sublist _)) hnd)
    intro k1 k2 hk
    simp only [List.cons.injEq, and_true] at hk
    exact Prod.ext hk.1 hk.2
  · intro f hf
    rw [detect_swap_wash_trades_def, List.mem_filterMap] at hf
    obtain ⟨kc, -, hpick⟩ := hf
    by_cases h : kc.2 ≥ max_swaps
    · rw [if_pos h] at hpick
      refine ⟨kc.1.1, kc.1.2, ?_⟩
      cases hpick
      rfl
    · rw [if_neg h] at hpick
      exact absurd hpick (by simp)
  · intro s s' r r' hs hr
    unfold wash_key
    rw [hs, hr]


/-- C5 witness: four swaps alternating direction and case between two
addresses accumulate into one pair counted 4, which is reported at
threshold 3. -/
theorem detect_swap_wash_trades_spec_witness :
    (⟨["0xa", "0xb"], 4⟩ : WashTrade) ∈
      detect_swap_wash_trades
        [⟨[some "0xA", some "0xB", some "p"], []⟩,
         ⟨[some "0xB", some "0xA", some "p"], []⟩,
         ⟨[some "0xa", some "0xb", some "p"], []⟩,
         ⟨[some "0xb", some "0xa", some "p"], []⟩] 3 :=
  ((detect_swap_wash_trades_spec
      [⟨[some "0xA", some "0xB", some "p"], []⟩,
       ⟨[some "0xB", some "0xA", some "p"], []⟩,
       ⟨[some "0xa", some "0xb", some "p"], []⟩,
       ⟨[some "0xb", some "0xa", some "p"], []⟩] 3).1
    "0xa" "0xb" 4).mpr (by decide)

theorem adjNeighbors_nil (a : String) : adjNeighbors [] a = [] := rfl

theorem adjNeighbors_cons (k : String) (ns : List String)
    (rest : List (String × List String)) (a : String) :
    adjNeighbors ((k, ns) :: rest) a =
      if k = a then ns else adjNeighbors rest a := rfl

theorem addNeighbor_cons (k : String) (ns : List String)
    (rest : List (String × List String)) (a b : String) :
    addNeighbor ((k, ns) :: rest) a b =
      if k = a then (k, if b ∈ ns then ns else ns ++ [b]) :: rest
      else (k, ns) :: addNeighbor rest a b := rfl

/-- Adding `b` to `a`'s neighbor set, viewed as finite sets. -/
theorem addNeighbor_toFinset (ed : List (String × List String))
    (a b a' : String) :
    (adjNeighbors (addNeighbor ed a b) a').toFinset =
      if a = a' then insert b (adjNeighbors ed a').toFinset
      else (adjNeighbors ed a').toFinset := by
  induction ed with
  | nil =>
      show (adjNeighbors [(a, [b])] a').toFinset = _
      rw [adjNeighbors_cons]
      by_cases h : a = a'
      · rw [if_pos h, if_pos h, adjNeighbors_nil]
        simp
      · rw [if_neg h, if_neg h]
  | cons kv rest ih =>
      obtain ⟨k, ns⟩ := kv
      rw [addNeighbor_cons]
      by_cases h0 : k = a
      · rw [if_pos h0, adjNeighbors_cons, adjNeighbors_cons]
        by_cases h1 : k = a'
        · simp only [if_pos h1, if_pos (h0.symm.trans h1)]
          by_cases hb : b ∈ ns
          · rw [if_pos hb]
            exact (Finset.insert_eq_self.mpr (List.mem_toFinset.mpr hb)).symm
          · rw [if_neg hb, List.toFinset_append]
            ext x
            simp [or_comm]
        · simp only [if_neg h1, if_neg (fun e : a = a' => h1 (h0.trans e))]
      · rw [if_neg h0, adjNeighbors_cons, adjNeighbors_cons]
        by_cases h1 : k = a'
        · simp only [if_pos h1,
            if_neg (fun e : a = a' => h0 (h1.trans e.symm))]
        · simp only [if_neg h1]
          exact ih

theorem addNeighbor_keys_mem (ed : List (String × List String))
    (a b a' : String) :
    a' ∈ (addNeighbor ed a b).map Prod.fst ↔
      a' ∈ ed.map Prod.fst ∨ a' = a := by
  induction ed with
  | nil => simp [addNeighbor]
  | cons kv rest ih =>
      obtain ⟨k, ns⟩ := kv
      rw [addNeighbor_cons]
      by_cases h0 : k = a
      · rw [if_pos h0]
        simp only [List.map_cons, List.mem_cons]
        constructor
        · rintro (rfl | hm)
          · exact Or.inl (Or.inl rfl)
          · exact Or.inl (Or.inr hm)
        · rintro ((rfl | hm) | rfl)
          · exact Or.inl rfl
          · exact Or.inr hm
          · exact Or.inl h0.symm
      · rw [if_neg h0]
        simp only [List.map_cons, List.mem_cons, ih]
        tauto

theorem addNeighbor_keys_nodup (ed : List (String × List String))
    (a b : String) (h : (ed.map Prod.fst).Nodup) :
    ((addNeighbor ed a b).map Prod.fst).Nodup := by
  induction ed with
  | nil => simp [addNeighbor]
  | cons kv rest ih =>
      obtain ⟨k, ns⟩ := kv
      simp only [List.map_cons, List.nodup_cons] at h
      rw [addNeighbor_cons]
      by_cases h0 : k = a
      · rw [if_pos h0]
        simp only [List.map_cons, List.nodup_cons]
        exact h
      · rw [if_neg h0]
        simp only [List.map_cons, List.nodup_cons]
        refine ⟨?_, ih h.2⟩
        rw [addNeighbor_keys_mem]
        rintro (hmem | rfl)
        · exact h.1 hmem
        · exact h0 rfl

theorem addNeighbor_values_nodup (ed : List (String × List String))
    (a b : String) (h : ∀ kv ∈ ed, (Prod.snd kv).Nodup) :
    ∀ kv ∈ addNeighbor ed a b, (Prod.snd kv).Nodup := by
  induction ed with
  | nil =>
      intro kv hkv
      simp only [addNeighbor, List.mem_singleton] at hkv
      subst hkv
      simp
  | cons kv0 rest ih =>
      obtain ⟨k, ns⟩ := kv0
      rw [addNeighbor_cons]
      have hns : ns.Nodup := h (k, ns) (List.mem_cons_self _ _)
      have hrest : ∀ kv ∈ rest, (Prod.snd kv).Nodup :=
        fun kv hkv => h kv (List.mem_cons_of_mem _ hkv)
      by_cases h0 : k = a
      · rw [if_pos h0]
        intro kv hkv
        rw [List.mem_cons] at hkv
        rcases hkv with rfl | hm
        · by_cases hb : b ∈ ns
          · rw [if_pos hb]
            exact hns
          · show (if b ∈ ns then ns else ns ++ [b]).Nodup
            rw [if_neg hb]
            simp [List.nodup_append, hns, hb]
        · exact hrest kv hm
      · rw [if_neg h0]
        intro kv hkv
        rw [List.mem_cons] at hkv
        rcases hkv with rfl | hm
        · exact hns
        · exact ih hrest kv hm

/-- In an adjacency list with duplicate-free keys, the entries are
exactly the present keys paired with their stored neighbor lists. -/
theorem adj_mem_iff (ed : List (String × List String))
    (h : (ed.map Prod.fst).Nodup) (k : String) (ns : List String) :
    (k, ns) ∈ ed ↔ k ∈ ed.map Prod.fst ∧ adjNeighbors ed k = ns := by
  induction ed with
  | nil => simp
  | cons kv rest ih =>
      obtain ⟨k0, ns0⟩ := kv
      simp only [List.map_cons, List.nodup_cons] at h
      simp only [List.mem_cons, List.map_cons, Prod.mk.injEq,
        adjNeighbors_cons]
      by_cases h0 : k0 = k
      · rw [if_pos h0]
        constructor
        · rintro (⟨-, rfl⟩ | hmem)
          · exact ⟨Or.inl h0.symm, rfl⟩
          · exfalso
            rw [h0] at h
            exact h.1 (List.mem_map.mpr ⟨(k, ns), hmem, rfl⟩)
        · rintro ⟨-, rfl⟩
          exact Or.inl ⟨h0.symm, rfl⟩
      · rw [if_neg h0, ih h.2]
        have h0' : ¬ (k = k0 ∧ ns = ns0) := fun hc => h0 hc.1.symm
        constructor
        · rintro (hc | ⟨hmem, hc⟩)
          · exact absurd hc h0'
          · exact ⟨Or.inr hmem, hc⟩
        · rintro ⟨(heq | hmem), hc⟩
          · exact absurd heq (fun e => h0 e.symm)
          · exact Or.inr ⟨hmem, hc⟩

/-- One step of the centrality loop adds exactly the event's counterparty
(if any) to each address's neighbor set. -/
theorem centralityStep_toFinset (ed : List (String × List String))
    (e : DecodedEvent) (a : String) :
    (adjNeighbors (centralityStep ed e) a).toFinset =
      (adjNeighbors ed a).toFinset ∪ (event_neighbor a e).toFinset := by
  unfold centralityStep
  cases hv : valid_pair e with
  | none =>
      have he : event_neighbor a e = Option.none := by
        unfold event_neighbor
        rw [hv]
      simp [he]
  | some sr =>
      obtain ⟨s, r⟩ := sr
      have he : event_neighbor a e =
          if s = a then some r
          else if r = a then some s else Option.none := by
        unfold event_neighbor
        rw [hv]
      rw [he, addNeighbor_toFinset, addNeighbor_toFinset]
      by_cases hs : s = a <;> by_cases hr : r = a
      · rw [if_pos hr, if_pos hs, if_pos hs]
        ext y
        simp [hs.trans hr.symm]
        tauto
      · rw [if_neg hr, if_pos hs, if_pos hs]
        ext y
        simp
        tauto
      · rw [if_pos hr, if_neg hs, if_neg hs, if_pos hr]
        ext y
        simp
        tauto
      · rw [if_neg hr, if_neg hs, if_neg hs, if_neg hr]
        simp

theorem foldl_centralityStep_toFinset (logs : List DecodedEvent)
    (ed : List (String × List String)) (a : String) :
    (adjNeighbors (logs.foldl centralityStep ed) a).toFinset =
      (adjNeighbors ed a).toFinset ∪
        (logs.filterMap (event_neighbor a)).toFinset := by
  induction logs generalizing ed with
  | nil => simp
  | cons x xs ih =>
      rw [List.foldl_cons, ih, centralityStep_toFinset]
      cases hx : event_neighbor a x with
      | none => simp [List.filterMap_cons, hx]
      | some b =>
          rw [List.filterMap_cons, hx]
          ext y
          simp
          tauto

theorem centralityStep_keys_mem (ed : List (String × List String))
    (e : DecodedEvent) (a : String) :
    a ∈ (centralityStep ed e).map Prod.fst ↔
      a ∈ ed.map Prod.fst ∨ (event_neighbor a e).isSome := by
  unfold centralityStep
  cases hv : valid_pair e with
  | none =>
      have he : event_neighbor a e = Option.none := by
        unfold event_neighbor
        rw [hv]
      simp [he]
  | some sr =>
      obtain ⟨s, r⟩ := sr
      have he : event_neighbor a e =
          if s = a then some r
          else if r = a then some s else Option.none := by
        unfold event_neighbor
        rw [hv]
      rw [he, addNeighbor_keys_mem, addNeighbor_keys_mem]
      by_cases hs : s = a <;> by_cases hr : r = a <;>
        simp [hs, hr] <;> tauto

theorem foldl_centralityStep_keys_mem (logs : List DecodedEvent)
    (ed : List (String × List String)) (a : String) :
    a ∈ (logs.foldl centralityStep ed).map Prod.fst ↔
      a ∈ ed.map Prod.fst ∨
        ∃ e ∈ logs, (event_neighbor a e).isSome := by
  induction logs generalizing ed with
  | nil => simp
  | cons x xs ih =>
      rw [List.foldl_cons, ih, centralityStep_keys_mem]
      simp only [List.mem_cons]
      constructor
      · rintro ((hm | hsome) | ⟨e, he, hsome⟩)
        · exact Or.inl hm
        · exact Or.inr ⟨x, Or.inl rfl, hsome⟩
        · exact Or.inr ⟨e, Or.inr he, hsome⟩
      · rintro (hm | ⟨e, (rfl | he), hsome⟩)
        · exact Or.inl (Or.inl hm)
        · exact Or.inl (Or.inr hsome)
        · exact Or.inr ⟨e, he, hsome⟩

theorem foldl_centralityStep_keys_nodup (logs : List DecodedEvent)
    (ed : List (String × List String))
    (h : (ed.map Prod.fst).Nodup) :
    ((logs.foldl centralityStep ed).map Prod.fst).Nodup := by
  induction logs generalizing ed with
  | nil => exact h
  | cons x xs ih =>
      refine ih _ ?_
      unfold centralityStep
      cases valid_pair x with
      | none => exact h
      | some sr =>
          exact addNeighbor_keys_nodup _ _ _
            (addNeighbor_keys_nodup _ _ _ h)

theorem foldl_centralityStep_values_nodup (logs : List DecodedEvent)
    (ed : List (String × List String))
    (h : ∀ kv ∈ ed, (Prod.snd kv).Nodup) :
    ∀ kv ∈ logs.foldl centralityStep ed, (Prod.snd kv).Nodup := by
  induction logs generalizing ed with
  | nil => exact h
  | cons x xs ih =>
      refine ih _ ?_
      unfold centralityStep
      cases valid_pair x with
      | none => exact h
      | some sr =>
          exact addNeighbor_values_nodup _ _ _
            (addNeighbor_values_nodup _ _ _ h)

theorem insertDesc_perm {α : Type} (key : α → ℤ) (x : α) (l : List α) :
    (insertDesc key x l).Perm (x :: l) := by
  induction l with
  | nil => exact List.Perm.refl _
  | cons y ys ih =>
      unfold insertDesc
      by_cases h : key y ≤ key x
      · rw [if_pos h]
      · rw [if_neg h]
        exact (List.Perm.cons y ih).trans (List.Perm.swap x y ys)

theorem sortDesc_perm {α : Type} (key : α → ℤ) (l : List α) :
    (sortDesc key l).Perm l := by
  induction l with
  | nil => exact List.Perm.refl _
  | cons x xs ih =>
      exact (insertDesc_perm key x (sortDesc key xs)).trans
        (List.Perm.cons x ih)

/-- Unfolding of `compute_address_centrality`. -/
theorem compute_address_centrality_def (logs : List DecodedEvent) (d : ℕ) :
    compute_address_centrality logs d =
      sortDesc (fun c => (c.degree : ℤ))
        ((logs.foldl centralityStep []).filterMap (fun kv =>
          if kv.2.length ≥ d then some ⟨kv.1, kv.2.length⟩
          else Option.none)) := rfl

theorem centrality_addresses_eq (d : ℕ)
    (edges : List (String × List String)) :
    ((edges.filterMap (fun kv =>
        if kv.2.length ≥ d then some (⟨kv.1, kv.2.length⟩ : Centrality)
        else Option.none)).map Centrality.address) =
      (edges.filter (fun kv => decide (kv.2.length ≥ d))).map Prod.fst := by
  induction edges with
  | nil => rfl
  | cons kv rest ih =>
      by_cases h : kv.2.length ≥ d <;>
        simp [List.filterMap_cons, List.filter_cons, h, ih]

/-- C2 (amended): the counterparty graph is keyed by the address string
exactly as it appears (no lower-casing): every reported record's degree
equals the number of distinct counterparty strings that address exchanged
a valid transfer with and reaches `min_degree`; an address appears in the
output iff it has at least one valid counterparty and enough of them; and
each address string is reported at most once. -/
theorem compute_address_centrality_amended (logs : List DecodedEvent)
    (d : ℕ) :
    (∀ r ∈ compute_address_centrality logs d,
      d ≤ r.degree ∧ r.degree = (spec_neighbors logs r.address).card) ∧
    (∀ a : String,
      a ∈ (compute_address_centrality logs d).map Centrality.address ↔
        (d ≤ (spec_neighbors logs a).card ∧
          (spec_neighbors logs a).Nonempty)) ∧
    ((compute_address_centrality logs d).map Centrality.address).Nodup := by
  have hknd : (((logs.foldl centralityStep [])).map Prod.fst).Nodup :=
    foldl_centralityStep_keys_nodup logs [] (by simp)
  have hvnd : ∀ kv ∈ logs.foldl centralityStep [], (Prod.snd kv).Nodup :=
    foldl_centralityStep_values_nodup logs [] (by simp)
  have htf : ∀ a, (adjNeighbors (logs.foldl centralityStep []) a).toFinset =
      spec_neighbors logs a := by
    intro a
    have h := foldl_centralityStep_toFinset logs [] a
    rw [adjNeighbors_nil] at h
    simpa [spec_neighbors] using h
  have hperm := sortDesc_perm (fun c : Centrality => (c.degree : ℤ))
    ((logs.foldl centralityStep []).filterMap (fun kv =>
      if kv.2.length ≥ d then some ⟨kv.1, kv.2.length⟩ else Option.none))
  have hlen : ∀ kv ∈ logs.foldl centralityStep [],
      kv.2.length = (spec_neighbors logs kv.1).card := by
    intro kv hkv
    have hnd := hvnd kv hkv
    have hadj := (adj_mem_iff _ hknd kv.1 kv.2).mp hkv
    rw [← htf kv.1, hadj.2]
    exact (List.toFinset_card_of_nodup hnd).symm
  have hmem : ∀ r : Centrality, r ∈ compute_address_centrality logs d ↔
      ∃ kv ∈ logs.foldl centralityStep [],
        (if kv.2.length ≥ d then
          some (⟨kv.1, kv.2.length⟩ : Centrality)
        else Option.none) = some r := by
    intro r
    rw [compute_address_centrality_def, hperm.mem_iff, List.mem_filterMap]
  refine ⟨?_, ?_, ?_⟩
  · intro r hr
    obtain ⟨kv, hkv, hpick⟩ := (hmem r).mp hr
    by_cases h : kv.2.length ≥ d
    · rw [if_pos h] at hpick
      obtain rfl : (⟨kv.1, kv.2.length⟩ : Centrality) = r :=
        Option.some.inj hpick
      exact ⟨h, (hlen kv hkv).symm ▸ (hlen kv hkv)⟩
    · rw [if_neg h] at hpick
      exact absurd hpick (by simp)
  · intro a
    constructor
    · intro ha
      obtain ⟨r, hr, rfl⟩ := List.mem_map.mp ha
      obtain ⟨kv, hkv, hpick⟩ := (hmem r).mp hr
      by_cases h : kv.2.length ≥ d
      · rw [if_pos h] at hpick
        obtain rfl : (⟨kv.1, kv.2.length⟩ : Centrality) = r :=
          Option.some.inj hpick
        have hcard := hlen kv hkv
        refine ⟨hcard ▸ h, ?_⟩
        have hkeys : kv.1 ∈ ((logs.foldl centralityStep [])).map Prod.fst :=
          List.mem_map.mpr ⟨kv, hkv, rfl⟩
        rw [foldl_centralityStep_keys_mem] at hkeys
        rcases hkeys with hk | ⟨e, he, hsome⟩
        · simp at hk
        · obtain ⟨b, hb⟩ := Option.isSome_iff_exists.mp hsome
          refine ⟨b, ?_⟩
          rw [spec_neighbors, List.mem_toFinset]
          exact List.mem_filterMap.mpr ⟨e, he, hb⟩
      · rw [if_neg h] at hpick
        exact absurd hpick (by simp)
    · rintro ⟨hd, b, hb⟩
      rw [spec_neighbors, List.mem_toFinset, List.mem_filterMap] at hb
      obtain ⟨e, he, heb⟩ := hb
      have hkeys : a ∈ ((logs.foldl centralityStep [])).map Prod.fst := by
        rw [foldl_centralityStep_keys_mem]
        exact Or.inr ⟨e, he, by rw [heb]; rfl⟩
      have hentry : (a, adjNeighbors (logs.foldl centralityStep []) a) ∈
          logs.foldl centralityStep [] :=
        (adj_mem_iff _ hknd a _).mpr ⟨hkeys, rfl⟩
      have hlena := hlen _ hentry
      refine List.mem_map.mpr ⟨⟨a, (adjNeighbors
        (logs.foldl centralityStep []) a).length⟩, ?_, rfl⟩
      refine (hmem _).mpr ⟨(a, adjNeighbors
        (logs.foldl centralityStep []) a), hentry, ?_⟩
      rw [if_pos]
      exact hlena ▸ hd
  · have hmapeq := centrality_addresses_eq d (logs.foldl centralityStep [])
    have hnodup : (((logs.foldl centralityStep []).filterMap (fun kv =>
        if kv.2.length ≥ d then some (⟨kv.1, kv.2.length⟩ : Centrality)
        else Option.none)).map Centrality.address).Nodup := by
      rw [hmapeq]
      exact List.Sublist.nodup
        (List.Sublist.map Prod.fst (List.filter_sublist _)) hknd
    rw [compute_address_centrality_def]
    exact ((hperm.map Centrality.address).nodup_iff).mpr hnodup

/-- C2 counterexample: `compute_address_centrality` does **not** key its
graph by lower-cased address.  With one transfer `0xA → 0xB` and one
`0xa → 0xC`, the claim would merge `0xA`/`0xa` into a single node of
degree 2; the code instead reports two distinct records whose lower-cased
address is `0xa` (each of degree 1), keyed by the raw strings. -/
theorem compute_address_centrality_not_lowercased :
    ¬ ((((compute_address_centrality
        [⟨[some "0xA", some "0xB"], []⟩,
         ⟨[some "0xa", some "0xC"], []⟩] 1).filter
      (fun r => pyLower r.address == "0xa")).length ≤ 1) ∧
      (∀ r ∈ compute_address_centrality
        [⟨[some "0xA", some "0xB"], []⟩,
         ⟨[some "0xa", some "0xC"], []⟩] 1,
        pyLower r.address = r.address)) := by decide

/-- C2 witness: a single transfer `0xA → 0xB` yields a degree-1 record
for `0xA`, equal to its number of distinct counterparties. -/
theorem compute_address_centrality_amended_witness :
    1 ≤ (⟨"0xA", 1⟩ : Centrality).degree ∧
    (⟨"0xA", 1⟩ : Centrality).degree =
      (spec_neighbors [⟨[some "0xA", some "0xB"], []⟩] "0xA").card :=
  (compute_address_centrality_amended
    [⟨[some "0xA", some "0xB"], []⟩] 1).1 ⟨"0xA", 1⟩ (by decide)

theorem bump_score_eq_map (scores : List RiskScore) (addr : Option String)
    (pts : ℤ) (f : Factor) :
    bump_score scores addr pts f = scores.map (bump1 addr pts f) := by
  cases addr with
  | none =>
      rw [show bump1 Option.none pts f = id from rfl, List.map_id]
      rfl
  | some a =>
      by_cases h : a = ""
      · subst h
        rw [show bump1 (some "") pts f = id from rfl, List.map_id]
        simp [bump_score]
      · have hb : bump1 (some a) pts f = fun r =>
            if r.address = pyLower a then
              ⟨r.address, r.score + pts, r.factors ++ [f]⟩
            else r := by
          funext r
          simp [bump1, h]
        rw [hb]
        simp [bump_score, h]

theorem apply_anomaly_eq_map (scores : List RiskScore) (an : Anomaly) :
    apply_anomaly scores an = scores.map (anomaly1 an) := by
  unfold apply_anomaly anomaly1
  rcases he : extract_transfer an.event with ⟨s, rc, v⟩
  simp only [bump_score_eq_map, List.map_map]
  rfl

theorem apply_large_eq_map (scores : List RiskScore)
    (lt : LargeTransfer) :
    apply_large_transfer scores lt = scores.map (large1 lt) := by
  unfold apply_large_transfer large1
  rcases he : extract_transfer lt.event with ⟨s, rc, v⟩
  simp only [bump_score_eq_map, List.map_map]
  rfl

theorem foldA_eq_map (anoms : List Anomaly) (scores : List RiskScore) :
    anoms.foldl apply_anomaly scores = scores.map (passA anoms) := by
  induction anoms generalizing scores with
  | nil => simp [passA]
  | cons an rest ih =>
      rw [List.foldl_cons, ih, apply_anomaly_eq_map, List.map_map]
      rfl

theorem foldL_eq_map (lts : List LargeTransfer)
    (scores : List RiskScore) :
    lts.foldl apply_large_transfer scores = scores.map (passL lts) := by
  induction lts generalizing scores with
  | nil => simp [passL]
  | cons lt rest ih =>
      rw [List.foldl_cons, ih, apply_large_eq_map, List.map_map]
      rfl

/-- The whole scoring call as a stable sort of an elementwise map over
the initial watchlist entries. -/
theorem score_wallet_activity_eq (w : List String) (anoms : List Anomaly)
    (lts : List LargeTransfer) (cent : List Centrality) :
    score_wallet_activity w anoms lts cent =
      sortDesc (fun r => r.score)
        ((init_scores (w.map pyLower)).map
          (fun r => finalize_score cent (passL lts (passA anoms r)))) := by
  show sortDesc (fun r => r.score)
      ((lts.foldl apply_large_transfer
        (anoms.foldl apply_anomaly
          (init_scores (w.map pyLower)))).map (finalize_score cent)) = _
  rw [foldA_eq_map, foldL_eq_map, List.map_map, List.map_map]
  rfl

theorem bump1_address (addr : Option String) (pts : ℤ) (f : Factor)
    (r : RiskScore) : (bump1 addr pts f r).address = r.address := by
  cases addr with
  | none => rfl
  | some a =>
      by_cases h : a = ""
      · simp [bump1, h]
      · by_cases h2 : r.address = pyLower a <;> simp [bump1, h, h2]

theorem bump1_score_le (addr : Option String) (pts : ℤ) (f : Factor)
    (r : RiskScore) (h : 0 ≤ pts) :
    r.score ≤ (bump1 addr pts f r).score := by
  cases addr with
  | none => exact le_refl _
  | some a =>
      by_cases h1 : a = ""
      · simp [bump1, h1]
      · by_cases h2 : r.address = pyLower a <;> simp [bump1, h1, h2] <;> omega

theorem bump1_congr (addr : Option String) (pts : ℤ) (f : Factor)
    (r1 r2 : RiskScore) (ha : r1.address = r2.address)
    (hs : r1.score ≤ r2.score) :
    (bump1 addr pts f r1).address = (bump1 addr pts f r2).address ∧
    (bump1 addr pts f r1).score ≤ (bump1 addr pts f r2).score := by
  rw [bump1_address, bump1_address]
  refine ⟨ha, ?_⟩
  cases addr with
  | none => exact hs
  | some a =>
      by_cases h1 : a = ""
      · simpa [bump1, h1] using hs
      · by_cases h2 : r1.address = pyLower a
        · rw [show bump1 (some a) pts f r1 =
              ⟨r1.address, r1.score + pts, r1.factors ++ [f]⟩ from by
            simp [bump1, h1, h2]]
          rw [show bump1 (some a) pts f r2 =
              ⟨r2.address, r2.score + pts, r2.factors ++ [f]⟩ from by
            simp [bump1, h1, ha ▸ h2]]
          show r1.score + pts ≤ r2.score + pts
          omega
        · have h2' : ¬ (r2.address = pyLower a) := fun e => h2 (ha ▸ e)
          rw [show bump1 (some a) pts f r1 = r1 from by
            simp [bump1, h1, h2]]
          rw [show bump1 (some a) pts f r2 = r2 from by
            simp [bump1, h1, h2']]
          exact hs

theorem bump1_skip (addr : Option String) (pts : ℤ) (f : Factor)
    (r : RiskScore)
    (h : ∀ a, addr = some a → a = "" ∨ pyLower a ≠ r.address) :
    bump1 addr pts f r = r := by
  cases addr with
  | none => rfl
  | some a =>
      rcases h a rfl with h1 | h1
      · simp [bump1, h1]
      · by_cases h2 : a = ""
        · simp [bump1, h2]
        · have hne : ¬ (r.address = pyLower a) := fun e => h1 e.symm
          simp [bump1, h2, hne]

theorem anomaly1_address (an : Anomaly) (r : RiskScore) :
    (anomaly1 an r).address = r.address := by
  unfold anomaly1
  rcases extract_transfer an.event with ⟨s, rc, v⟩
  rw [bump1_address, bump1_address]

theorem anomaly1_score_le (an : Anomaly) (r : RiskScore) :
    r.score ≤ (anomaly1 an r).score := by
  unfold anomaly1
  rcases extract_transfer an.event with ⟨s, rc, v⟩
  exact le_trans (bump1_score_le _ _ _ _ (by norm_num))
    (bump1_score_le _ _ _ _ (by norm_num))

theorem anomaly1_congr (an : Anomaly) (r1 r2 : RiskScore)
    (ha : r1.address = r2.address) (hs : r1.score ≤ r2.score) :
    (anomaly1 an r1).address = (anomaly1 an r2).address ∧
    (anomaly1 an r1).score ≤ (anomaly1 an r2).score := by
  unfold anomaly1
  rcases extract_transfer an.event with ⟨s, rc, v⟩
  have h1 := bump1_congr s 20 (Factor.z_score_anomaly an.z_score v) r1 r2
    ha hs
  exact bump1_congr _ _ _ _ _ h1.1 h1.2

theorem anomaly1_skip (an : Anomaly) (r : RiskScore)
    (h : ¬ touches_event an.event r.address) :
    anomaly1 an r = r := by
  unfold anomaly1
  unfold touches_event at h
  push_neg at h
  rcases he : extract_transfer an.event with ⟨s, rc, v⟩
  rw [he] at h
  have hs : bump1 s 20 (Factor.z_score_anomaly an.z_score v) r = r := by
    refine bump1_skip _ _ _ _ (fun a haeq => ?_)
    by_cases hae : a = ""
    · exact Or.inl hae
    · refine Or.inr fun hlow => ?_
      exact (h a (Or.inl (by rw [haeq]))) hae hlow
  show bump1 rc 20 (Factor.z_score_anomaly an.z_score v)
    (bump1 s 20 (Factor.z_score_anomaly an.z_score v) r) = r
  rw [hs]
  refine bump1_skip _ _ _ _ (fun a haeq => ?_)
  by_cases hae : a = ""
  · exact Or.inl hae
  · refine Or.inr fun hlow => ?_
    exact (h a (Or.inr (by rw [haeq]))) hae hlow

theorem large1_address (lt : LargeTransfer) (r : RiskScore) :
    (large1 lt r).address = r.address := by
  unfold large1
  rcases extract_transfer lt.event with ⟨s, rc, v⟩
  rw [bump1_address, bump1_address]

theorem large1_score_le (lt : LargeTransfer) (r : RiskScore) :
    r.score ≤ (large1 lt r).score := by
  unfold large1
  rcases extract_transfer lt.event with ⟨s, rc, v⟩
  exact le_trans (bump1_score_le _ _ _ _ (by norm_num))
    (bump1_score_le _ _ _ _ (by norm_num))

theorem large1_congr (lt : LargeTransfer) (r1 r2 : RiskScore)
    (ha : r1.address = r2.address) (hs : r1.score ≤ r2.score) :
    (large1 lt r1).address = (large1 lt r2).address ∧
    (large1 lt r1).score ≤ (large1 lt r2).score := by
  unfold large1
  rcases extract_transfer lt.event with ⟨s, rc, v⟩
  have h1 := bump1_congr s 15 (Factor.large_transfer lt.value) r1 r2 ha hs
  exact bump1_congr _ _ _ _ _ h1.1 h1.2

theorem large1_skip (lt : LargeTransfer) (r : RiskScore)
    (h : ¬ touches_event lt.event r.address) :
    large1 lt r = r := by
  unfold large1
  unfold touches_event at h
  push_neg at h
  rcases he : extract_transfer lt.event with ⟨s, rc, v⟩
  rw [he] at h
  have hs : bump1 s 15 (Factor.large_transfer lt.value) r = r := by
    refine bump1_skip _ _ _ _ (fun a haeq => ?_)
    by_cases hae : a = ""
    · exact Or.inl hae
    · refine Or.inr fun hlow => ?_
      exact (h a (Or.inl (by rw [haeq]))) hae hlow
  show bump1 rc 15 (Factor.large_transfer lt.value)
    (bump1 s 15 (Factor.large_transfer lt.value) r) = r
  rw [hs]
  refine bump1_skip _ _ _ _ (fun a haeq => ?_)
  by_cases hae : a = ""
  · exact Or.inl hae
  · refine Or.inr fun hlow => ?_
    exact (h a (Or.inr (by rw [haeq]))) hae hlow

theorem passA_address (anoms : List Anomaly) (r : RiskScore) :
    (passA anoms r).address = r.address := by
  induction anoms generalizing r with
  | nil => rfl
  | cons an rest ih =>
      show (passA rest (anomaly1 an r)).address = r.address
      rw [ih, anomaly1_address]

theorem passA_score_le (anoms : List Anomaly) (r : RiskScore) :
    r.score ≤ (passA anoms r).score := by
  induction anoms generalizing r with
  | nil => exact le_refl _
  | cons an rest ih =>
      exact le_trans (anomaly1_score_le an r) (ih (anomaly1 an r))

theorem passA_append (l1 l2 : List Anomaly) (r : RiskScore) :
    passA (l1 ++ l2) r = passA l2 (passA l1 r) := by
  induction l1 generalizing r with
  | nil => rfl
  | cons an rest ih =>
      show passA (rest ++ l2) (anomaly1 an r) = _
      rw [ih]
      rfl

theorem passA_congr (anoms : List Anomaly) (r1 r2 : RiskScore)
    (ha : r1.address = r2.address) (hs : r1.score ≤ r2.score) :
    (passA anoms r1).address = (passA anoms r2).address ∧
    (passA anoms r1).score ≤ (passA anoms r2).score := by
  induction anoms generalizing r1 r2 with
  | nil => exact ⟨ha, hs⟩
  | cons an rest ih =>
      have h1 := anomaly1_congr an r1 r2 ha hs
      exact ih (anomaly1 an r1) (anomaly1 an r2) h1.1 h1.2

theorem passA_skip (anoms : List Anomaly) (r : RiskScore)
    (h : ∀ an ∈ anoms, ¬ touches_event an.event r.address) :
    passA anoms r = r := by
  induction anoms with
  | nil => rfl
  | cons an rest ih =>
      show passA rest (anomaly1 an r) = r
      rw [anomaly1_skip an r (h an (List.mem_cons_self _ _))]
      exact ih (fun a ha => h a (List.mem_cons_of_mem _ ha))

theorem passL_address (lts : List LargeTransfer) (r : RiskScore) :
    (passL lts r).address = r.address := by
  induction lts generalizing r with
  | nil => rfl
  | cons lt rest ih =>
      show (passL rest (large1 lt r)).address = r.address
      rw [ih, large1_address]

theorem passL_score_le (lts : List LargeTransfer) (r : RiskScore) :
    r.score ≤ (passL lts r).score := by
  induction lts generalizing r with
  | nil => exact le_refl _
  | cons lt rest ih =>
      exact le_trans (large1_score_le lt r) (ih (large1 lt r))

theorem passL_append (l1 l2 : List LargeTransfer) (r : RiskScore) :
    passL (l1 ++ l2) r = passL l2 (passL l1 r) := by
  induction l1 generalizing r with
  | nil => rfl
  | cons lt rest ih =>
      show passL (rest ++ l2) (large1 lt r) = _
      rw [ih]
      rfl

theorem passL_congr (lts : List LargeTransfer) (r1 r2 : RiskScore)
    (ha : r1.address = r2.address) (hs : r1.score ≤ r2.score) :
    (passL lts r1).address = (passL lts r2).address ∧
    (passL lts r1).score ≤ (passL lts r2).score := by
  induction lts generalizing r1 r2 with
  | nil => exact ⟨ha, hs⟩
  | cons lt rest ih =>
      have h1 := large1_congr lt r1 r2 ha hs
      exact ih (large1 lt r1) (large1 lt r2) h1.1 h1.2

theorem passL_skip (lts : List LargeTransfer) (r : RiskScore)
    (h : ∀ lt ∈ lts, ¬ touches_event lt.event r.address) :
    passL lts r = r := by
  induction lts with
  | nil => rfl
  | cons lt rest ih =>
      show passL rest (large1 lt r) = r
      rw [large1_skip lt r (h lt (List.mem_cons_self _ _))]
      exact ih (fun a ha => h a (List.mem_cons_of_mem _ ha))

theorem finalize_score_address (cent : List Centrality) (r : RiskScore) :
    (finalize_score cent r).address = r.address := by
  unfold finalize_score
  cases central_lookup cent r.address <;> rfl

theorem finalize_score_bounds (cent : List Centrality) (r : RiskScore)
    (h : 0 ≤ r.score) :
    0 ≤ (finalize_score cent r).score ∧
      (finalize_score cent r).score ≤ 100 := by
  unfold finalize_score
  cases central_lookup cent r.address with
  | none =>
      show 0 ≤ min 100 r.score ∧ min 100 r.score ≤ 100
      omega
  | some c =>
      show 0 ≤ min 100 (r.score + min 25 ((c.degree : ℤ) * 5)) ∧
        min 100 (r.score + min 25 ((c.degree : ℤ) * 5)) ≤ 100
      have hd : (0 : ℤ) ≤ (c.degree : ℤ) * 5 := by positivity
      omega

theorem finalize_score_congr (cent : List Centrality) (r1 r2 : RiskScore)
    (ha : r1.address = r2.address) (hs : r1.score ≤ r2.score) :
    (finalize_score cent r1).score ≤ (finalize_score cent r2).score := by
  unfold finalize_score
  rw [ha]
  cases central_lookup cent r2.address with
  | none =>
      show min 100 r1.score ≤ min 100 r2.score
      omega
  | some c =>
      show min 100 (r1.score + min 25 ((c.degree : ℤ) * 5)) ≤
        min 100 (r2.score + min 25 ((c.degree : ℤ) * 5))
      omega

theorem finalize_score_untouched (cent : List Centrality) (r : RiskScore)
    (h : central_lookup cent r.address = Option.none) :
    (finalize_score cent r).score = min 100 r.score := by
  unfold finalize_score
  rw [h]

theorem init_scores_eq (l : List String) :
    init_scores l = l.foldl initStep [] := rfl

theorem initStep_any (acc : List RiskScore) (a : String) :
    (acc.any (fun r => r.address == a) = true) ↔
      a ∈ acc.map RiskScore.address := by
  rw [List.any_eq_true]
  constructor
  · rintro ⟨r, hr, hb⟩
    exact List.mem_map.mpr ⟨r, hr, beq_iff_eq.mp hb⟩
  · intro hm
    obtain ⟨r, hr, he⟩ := List.mem_map.mp hm
    exact ⟨r, hr, beq_iff_eq.mpr he⟩

theorem init_fold_entries (l : List String) (acc : List RiskScore)
    (h : ∀ r ∈ acc, r.score = 0 ∧ r.factors = []) :
    ∀ r ∈ l.foldl initStep acc, r.score = 0 ∧ r.factors = [] := by
  induction l generalizing acc with
  | nil => exact h
  | cons a rest ih =>
      refine ih _ ?_
      intro r hr
      unfold initStep at hr
      by_cases hany : acc.any (fun r => r.address == a) = true
      · rw [if_pos hany] at hr
        exact h r hr
      · rw [if_neg hany] at hr
        rcases List.mem_append.mp hr with hm | hm
        · exact h r hm
        · rw [List.mem_singleton] at hm
          subst hm
          exact ⟨rfl, rfl⟩

theorem init_fold_mem (l : List String) (acc : List RiskScore)
    (x : String) :
    x ∈ (l.foldl initStep acc).map RiskScore.address ↔
      x ∈ acc.map RiskScore.address ∨ x ∈ l := by
  induction l generalizing acc with
  | nil => simp
  | cons a rest ih =>
      rw [List.foldl_cons, ih]
      unfold initStep
      by_cases hany : acc.any (fun r => r.address == a) = true
      · rw [if_pos hany]
        rw [initStep_any] at hany
        simp only [List.mem_cons]
        constructor
        · rintro (hm | hm)
          · exact Or.inl hm
          · exact Or.inr (Or.inr hm)
        · rintro (hm | rfl | hm)
          · exact Or.inl hm
          · exact Or.inl hany
          · exact Or.inr hm
      · rw [if_neg hany]
        simp only [List.map_append, List.map_cons, List.map_nil,
          List.mem_append, List.mem_singleton, List.mem_cons]
        tauto

theorem init_fold_nodup (l : List String) (acc : List RiskScore)
    (h : (acc.map RiskScore.address).Nodup) :
    ((l.foldl initStep acc).map RiskScore.address).Nodup := by
  induction l generalizing acc with
  | nil => exact h
  | cons a rest ih =>
      refine ih _ ?_
      unfold initStep
      by_cases hany : acc.any (fun r => r.address == a) = true
      · rw [if_pos hany]
        exact h
      · rw [if_neg hany]
        rw [initStep_any] at hany
        simp [List.nodup_append, h, hany]

theorem map_map_address (f : RiskScore → RiskScore)
    (h : ∀ r, (f r).address = r.address) (lst : List RiskScore) :
    (lst.map f).map RiskScore.address = lst.map RiskScore.address := by
  induction lst with
  | nil => rfl
  | cons x xs ih => simp [h, ih]

/-- C6: risk scoring is total over the watchlist, bounded, and monotone:
one entry per distinct lower-cased watchlist address; every score lies in
[0, 100]; an address mentioned in no anomaly or large-transfer finding
and without a centrality record scores 0; and appending further anomaly
or large-transfer findings never decreases any address's score. -/
theorem score_wallet_activity_spec (w : List String)
    (anoms : List Anomaly) (lts : List LargeTransfer)
    (cent : List Centrality) :
    ((score_wallet_activity w anoms lts cent).map RiskScore.address).Nodup ∧
    (∀ x, x ∈ (score_wallet_activity w anoms lts cent).map
        RiskScore.address ↔ x ∈ w.map pyLower) ∧
    (∀ r ∈ score_wallet_activity w anoms lts cent,
      0 ≤ r.score ∧ r.score ≤ 100) ∧
    (∀ r ∈ score_wallet_activity w anoms lts cent,
      (∀ an ∈ anoms, ¬ touches_event an.event r.address) →
      (∀ lt ∈ lts, ¬ touches_event lt.event r.address) →
      central_lookup cent r.address = Option.none →
      r.score = 0) ∧
    (∀ (extraA : List Anomaly) (extraL : List LargeTransfer),
      ∀ r1 ∈ score_wallet_activity w anoms lts cent,
      ∀ r2 ∈ score_wallet_activity w (anoms ++ extraA) (lts ++ extraL)
        cent,
      r1.address = r2.address → r1.score ≤ r2.score) := by
  have hinit_entries : ∀ r ∈ init_scores (w.map pyLower),
      r.score = 0 ∧ r.factors = [] := by
    rw [init_scores_eq]
    exact init_fold_entries _ [] (by simp)
  have hinit_nodup :
      ((init_scores (w.map pyLower)).map RiskScore.address).Nodup := by
    rw [init_scores_eq]
    exact init_fold_nodup _ [] (by simp)
  have hinit_mem : ∀ x,
      x ∈ (init_scores (w.map pyLower)).map RiskScore.address ↔
        x ∈ w.map pyLower := by
    intro x
    rw [init_scores_eq, init_fold_mem]
    simp
  have hTaddr : ∀ (a : List Anomaly) (l : List LargeTransfer)
      (r : RiskScore),
      (finalize_score cent (passL l (passA a r))).address = r.address := by
    intro a l r
    rw [finalize_score_address, passL_address, passA_address]
  have hmem : ∀ (a : List Anomaly) (l : List LargeTransfer)
      (r : RiskScore),
      r ∈ score_wallet_activity w a l cent ↔
        ∃ r0 ∈ init_scores (w.map pyLower),
          finalize_score cent (passL l (passA a r0)) = r := by
    intro a l r
    rw [score_wallet_activity_eq, (sortDesc_perm _ _).mem_iff,
      List.mem_map]
  have hmap : ∀ (a : List Anomaly) (l : List LargeTransfer),
      ((score_wallet_activity w a l cent).map RiskScore.address).Perm
        ((init_scores (w.map pyLower)).map RiskScore.address) := by
    intro a l
    rw [score_wallet_activity_eq]
    have hp := (sortDesc_perm (fun r : RiskScore => r.score)
      ((init_scores (w.map pyLower)).map
        (fun r => finalize_score cent (passL l (passA a r))))).map
      RiskScore.address
    rwa [map_map_address _ (hTaddr a l)] at hp
  refine ⟨?_, ?_, ?_, ?_, ?_⟩
  · exact ((hmap anoms lts).nodup_iff).mpr hinit_nodup
  · intro x
    rw [(hmap anoms lts).mem_iff, hinit_mem]
  · intro r hr
    obtain ⟨r0, hr0, rfl⟩ := (hmem anoms lts r).mp hr
    have h0 := (hinit_entries r0 hr0).1
    have hA := passA_score_le anoms r0
    have hL := passL_score_le lts (passA anoms r0)
    exact finalize_score_bounds cent _ (by omega)
  · intro r hr hA hL hc
    obtain ⟨r0, hr0, rfl⟩ := (hmem anoms lts r).mp hr
    have haddr : (finalize_score cent
        (passL lts (passA anoms r0))).address = r0.address :=
      hTaddr anoms lts r0
    rw [haddr] at hA hL hc
    rw [passA_skip anoms r0 hA, passL_skip lts r0 hL,
      finalize_score_untouched cent r0 hc, (hinit_entries r0 hr0).1]
    decide
  · intro ea el r1 h1 r2 h2 haeq
    obtain ⟨r01, hr01, rfl⟩ := (hmem anoms lts r1).mp h1
    obtain ⟨r02, hr02, rfl⟩ := (hmem _ _ r2).mp h2
    rw [hTaddr, hTaddr] at haeq
    have hr0eq : r01 = r02 := by
      obtain ⟨hs1, hf1⟩ := hinit_entries r01 hr01
      obtain ⟨hs2, hf2⟩ := hinit_entries r02 hr02
      obtain ⟨a1, s1, f1⟩ := r01
      obtain ⟨a2, s2, f2⟩ := r02
      simp only at hs1 hf1 hs2 hf2 haeq
      subst hs1
      subst hf1
      subst hs2
      subst hf2
      subst haeq
      rfl
    subst hr0eq
    rw [passA_append, passL_append]
    have hXa : (passA ea (passA anoms r01)).address =
        (passA anoms r01).address := passA_address _ _
    have hXs : (passA anoms r01).score ≤
        (passA ea (passA anoms r01)).score := passA_score_le _ _
    have hstep := passL_congr lts (passA anoms r01)
      (passA ea (passA anoms r01)) hXa.symm hXs
    have hext := passL_score_le el
      (passL lts (passA ea (passA anoms r01)))
    have hfaddr : (passL lts (passA anoms r01)).address =
        (passL el (passL lts (passA ea (passA anoms r01)))).address := by
      simp only [passL_address, passA_address]
    exact finalize_score_congr cent _ _ hfaddr (by omega)

/-- C6 witness: watchlist `["0xA"]` with one large transfer (15 points)
and a degree-2 centrality record (10 points) scores 25, inside the
[0, 100] bound. -/
theorem score_wallet_activity_spec_witness :
    0 ≤ (⟨"0xa", 25,
      [Factor.large_transfer 7, Factor.centrality 2]⟩ : RiskScore).score ∧
    (⟨"0xa", 25,
      [Factor.large_transfer 7, Factor.centrality 2]⟩ : RiskScore).score ≤
      100 :=
  (score_wallet_activity_spec ["0xA"] []
    [⟨⟨[some "0xa", some "0xB"], [PVal.int 7]⟩, 7⟩] [⟨"0xA", 2⟩]).2.2.1
    ⟨"0xa", 25, [Factor.large_transfer 7, Factor.centrality 2]⟩
    (by
      rw [show score_wallet_activity ["0xA"] []
          [⟨⟨[some "0xa", some "0xB"], [PVal.int 7]⟩, 7⟩] [⟨"0xA", 2⟩] =
          [⟨"0xa", 25, [Factor.large_transfer 7, Factor.centrality 2]⟩]
        from rfl]
      exact List.mem_singleton_self _)

theorem txGet_nil (x : String) : txGet [] x = Option.none := rfl

theorem txGet_cons (k0 : String) (v0 : TxVal) (rest : Tx) (x : String) :
    txGet ((k0, v0) :: rest) x =
      if k0 = x then some v0 else txGet rest x := by
  unfold txGet
  by_cases h : k0 = x
  · rw [List.find?_cons_of_pos _ (by simpa [beq_iff_eq] using h), if_pos h]
    rfl
  · rw [List.find?_cons_of_neg _ (by simpa [beq_iff_eq] using h), if_neg h]

theorem txGet_map_set (tx : Tx) (k : String) (v : TxVal) (x : String)
    (hx : x ≠ k) :
    txGet (tx.map (fun kv => if kv.1 == k then (kv.1, v) else kv)) x =
      txGet tx x := by
  induction tx with
  | nil => rfl
  | cons kv rest ih =>
      obtain ⟨k0, v0⟩ := kv
      rw [List.map_cons]
      simp only [beq_iff_eq] at ih ⊢
      by_cases h0 : k0 = k
      · subst h0
        rw [if_pos rfl, txGet_cons, txGet_cons]
        have hne : ¬ (k0 = x) := fun e => hx (e.symm)
        rw [if_neg hne, if_neg hne, ih]
      · rw [if_neg h0, txGet_cons, txGet_cons]
        by_cases h1 : k0 = x
        · rw [if_pos h1, if_pos h1]
        · rw [if_neg h1, if_neg h1, ih]

theorem txGet_append_other (tx : Tx) (k : String) (v : TxVal)
    (x : String) (hx : x ≠ k) :
    txGet (tx ++ [(k, v)]) x = txGet tx x := by
  induction tx with
  | nil =>
      rw [List.nil_append, txGet_cons, if_neg (fun e => hx e.symm)]
  | cons kv rest ih =>
      obtain ⟨k0, v0⟩ := kv
      rw [List.cons_append, txGet_cons, txGet_cons]
      by_cases h1 : k0 = x
      · rw [if_pos h1, if_pos h1]
      · rw [if_neg h1, if_neg h1, ih]

theorem txGet_map_set_self (tx : Tx) (k : String) (v : TxVal)
    (h : ∃ kv ∈ tx, (Prod.fst kv) = k) :
    txGet (tx.map (fun kv => if kv.1 == k then (kv.1, v) else kv)) k =
      some v := by
  induction tx with
  | nil => simp at h
  | cons kv rest ih =>
      obtain ⟨k0, v0⟩ := kv
      rw [List.map_cons]
      simp only [beq_iff_eq] at ih ⊢
      by_cases h0 : k0 = k
      · subst h0
        rw [if_pos rfl, txGet_cons, if_pos rfl]
      · rw [if_neg h0, txGet_cons, if_neg h0]
        refine ih ?_
        obtain ⟨kv1, hkv1, hk1⟩ := h
        rcases List.mem_cons.mp hkv1 with rfl | hm
        · exact absurd hk1 h0
        · exact ⟨kv1, hm, hk1⟩

theorem txGet_append_self (tx : Tx) (k : String) (v : TxVal)
    (h : ∀ kv ∈ tx, (Prod.fst kv) ≠ k) :
    txGet (tx ++ [(k, v)]) k = some v := by
  induction tx with
  | nil =>
      rw [List.nil_append, txGet_cons, if_pos rfl]
  | cons kv rest ih =>
      obtain ⟨k0, v0⟩ := kv
      rw [List.cons_append, txGet_cons,
        if_neg (h (k0, v0) (List.mem_cons_self _ _)),
        ih (fun kv hkv => h kv (List.mem_cons_of_mem _ hkv))]

theorem txSet_frame (tx : Tx) (k : String) (v : TxVal) (x : String)
    (hx : x ≠ k) : txGet (txSet tx k v) x = txGet tx x := by
  unfold txSet
  by_cases h : tx.any (fun kv => kv.1 == k) = true
  · rw [if_pos h]
    exact txGet_map_set tx k v x hx
  · rw [if_neg h]
    exact txGet_append_other tx k v x hx

theorem txSet_get (tx : Tx) (k : String) (v : TxVal) :
    txGet (txSet tx k v) k = some v := by
  unfold txSet
  by_cases h : tx.any (fun kv => kv.1 == k) = true
  · rw [if_pos h]
    rw [List.any_eq_true] at h
    obtain ⟨kv0, hkv0, hb⟩ := h
    exact txGet_map_set_self tx k v ⟨kv0, hkv0, beq_iff_eq.mp hb⟩
  · rw [if_neg h]
    rw [Bool.not_eq_true, List.any_eq_false] at h
    refine txGet_append_self tx k v (fun kv hkv => ?_)
    have := h kv hkv
    simpa [beq_iff_eq] using this

/-- A field that is absent, `None`, or a string never makes the watchlist
check raise. -/
theorem addr_in_watch_ok (v : Option TxVal) (watch : List String)
    (h : ∀ w, v = some w → w = TxVal.none ∨ ∃ s, w = TxVal.str s) :
    ∃ b, addr_in_watch v watch = Except.ok b := by
  cases v with
  | none => exact ⟨false, rfl⟩
  | some w =>
      rcases h w rfl with rfl | ⟨s, rfl⟩
      · exact ⟨false, rfl⟩
      · by_cases hs : s = ""
        · subst hs
          exact ⟨false, rfl⟩
        · refine ⟨watch.contains (pyLower s), ?_⟩
          simp [addr_in_watch, txvTruthy, hs]

theorem txGetOr_prop (tx : Tx) (k1 k2 : String)
    (h1 : ∀ v, txGet tx k1 = some v →
      v = TxVal.none ∨ ∃ s, v = TxVal.str s)
    (h2 : ∀ v, txGet tx k2 = some v →
      v = TxVal.none ∨ ∃ s, v = TxVal.str s) :
    ∀ v, txGetOr tx k1 k2 = some v →
      v = TxVal.none ∨ ∃ s, v = TxVal.str s := by
  intro v hv
  unfold txGetOr at hv
  cases hg : txGet tx k1 with
  | none =>
      rw [hg] at hv
      exact h2 v hv
  | some w =>
      rw [hg] at hv
      change (if txvTruthy w = true then some w else txGet tx k2) =
        some v at hv
      by_cases ht : txvTruthy w = true
      · rw [if_pos ht] at hv
        exact h1 v (hg.trans hv)
      · rw [if_neg ht] at hv
        exact h2 v hv

/-- The labeler's loop body succeeds on a transaction whose address
fields are strings or `None`, attaching a risk-flag subset. -/
theorem label_tx_ok (watch : List String) (thr : ℤ) (tx : Tx)
    (h : ∀ k ∈ ["from", "from_", "to"], ∀ v, txGet tx k = some v →
      v = TxVal.none ∨ ∃ s, v = TxVal.str s) :
    ∃ fs, label_tx watch thr tx =
        Except.ok (txSet tx "risk_flags" (TxVal.flags fs)) ∧
      fs ⊆ ["sender_watchlist", "recipient_watchlist", "large_value"] := by
  have hsender := txGetOr_prop tx "from" "from_"
    (h "from" (by simp)) (h "from_" (by simp))
  obtain ⟨b1, hb1⟩ := addr_in_watch_ok (txGetOr tx "from" "from_") watch
    hsender
  obtain ⟨b2, hb2⟩ := addr_in_watch_ok (txGet tx "to") watch
    (h "to" (by simp))
  refine ⟨(if b1 then ["sender_watchlist"] else []) ++
    (if b2 then ["recipient_watchlist"] else []) ++
    (if (match tx_maybe_hex_to_int (txGet tx "value") with
      | some v => decide (v ≥ thr)
      | Option.none => false) then ["large_value"] else []), ?_, ?_⟩
  · show (do
      let sflag ← addr_in_watch (txGetOr tx "from" "from_") watch
      let rflag ← addr_in_watch (txGet tx "to") watch
      let big : Bool :=
        match tx_maybe_hex_to_int (txGet tx "value") with
        | some v => decide (v ≥ thr)
        | Option.none => false
      let risk_flags : List String :=
        (if sflag then ["sender_watchlist"] else []) ++
        (if rflag then ["recipient_watchlist"] else []) ++
        (if big then ["large_value"] else [])
      pure (txSet tx "risk_flags" (TxVal.flags risk_flags))) = _
    rw [hb1, hb2]
    rfl
  · have hsub : ∀ (x1 x2 x3 : Bool),
        ((if x1 then ["sender_watchlist"] else []) ++
          (if x2 then ["recipient_watchlist"] else []) ++
          (if x3 then ["large_value"] else [])) ⊆
          ["sender_watchlist", "recipient_watchlist", "large_value"] := by
      decide
    exact hsub _ _ _

/-- C10 (amended): on transactions whose address fields are strings or
`None`, `label_transaction_risk` succeeds and returns, per record, every
original key except `risk_flags` with its original value, plus
`risk_flags` mapped to a (possibly empty) subset of
{sender_watchlist, recipient_watchlist, large_value}; a pre-existing
`risk_flags` value is overwritten rather than preserved. -/
theorem label_transaction_risk_amended (txs : List Tx)
    (watchlist : List String) (thr : ℤ)
    (h : ∀ tx ∈ txs, ∀ k ∈ ["from", "from_", "to"], ∀ v,
      txGet tx k = some v → v = TxVal.none ∨ ∃ s, v = TxVal.str s) :
    ∃ outs, label_transaction_risk txs watchlist thr = Except.ok outs ∧
      List.Forall₂ (fun tx out =>
        (∀ k, k ≠ "risk_flags" → txGet out k = txGet tx k) ∧
        ∃ fs, txGet out "risk_flags" = some (TxVal.flags fs) ∧
          fs ⊆ ["sender_watchlist", "recipient_watchlist", "large_value"])
        txs outs := by
  unfold label_transaction_risk
  induction txs with
  | nil => exact ⟨[], rfl, List.Forall₂.nil⟩
  | cons tx rest ih =>
      obtain ⟨outs, houts, hall⟩ :=
        ih (fun t ht => h t (List.mem_cons_of_mem _ ht))
      obtain ⟨fs, hfs, hsub⟩ := label_tx_ok (watchlist.map pyLower) thr tx
        (h tx (List.mem_cons_self _ _))
      refine ⟨txSet tx "risk_flags" (TxVal.flags fs) :: outs, ?_, ?_⟩
      · rw [List.mapM_cons, hfs, houts]
        rfl
      · refine List.Forall₂.cons ⟨?_, fs, ?_, hsub⟩ hall
        · intro k hk
          exact txSet_frame tx "risk_flags" (TxVal.flags fs) k hk
        · exact txSet_get tx "risk_flags" (TxVal.flags fs)

/-- C10 counterexample: a transaction that already carries a
`risk_flags` key does not keep its original value — the labeler
overwrites it, so the output does not contain every original key with
its original value plus one new key. -/
theorem label_transaction_risk_overwrites :
    label_transaction_risk [[("risk_flags", TxVal.int 7)]] [] 5 =
      Except.ok [[("risk_flags", TxVal.flags [])]] ∧
    txGet [("risk_flags", TxVal.flags [])] "risk_flags" ≠
      some (TxVal.int 7) :=
  ⟨rfl, by decide⟩

/-- C10 witness: a watched sender receives exactly the
`sender_watchlist` flag while its own fields pass through unchanged. -/
theorem label_transaction_risk_amended_witness :
    ∃ outs, label_transaction_risk [[("from", TxVal.str "0xAB")]]
        ["0xab"] 5 = Except.ok outs ∧
      List.Forall₂ (fun tx out =>
        (∀ k, k ≠ "risk_flags" → txGet out k = txGet tx k) ∧
        ∃ fs, txGet out "risk_flags" = some (TxVal.flags fs) ∧
          fs ⊆ ["sender_watchlist", "recipient_watchlist", "large_value"])
        [[("from", TxVal.str "0xAB")]] outs :=
  label_transaction_risk_amended [[("from", TxVal.str "0xAB")]]
    ["0xab"] 5
    (by
      intro tx htx k hk v hv
      rw [List.mem_singleton] at htx
      subst htx
      fin_cases hk
      · rw [show txGet [("from", TxVal.str "0xAB")] "from" =
            some (TxVal.str "0xAB") from rfl] at hv
        exact Or.inr ⟨"0xAB", (Option.some.inj hv).symm⟩
      · rw [show txGet [("from", TxVal.str "0xAB")] "from_" =
            Option.none from rfl] at hv
        exact absurd hv (by simp)
      · rw [show txGet [("from", TxVal.str "0xAB")] "to" =
            Option.none from rfl] at hv
        exact absurd hv (by simp))
